import Mathlib

/-!
Shallow embedding of the `storage_engine` repository (B-Tree, WAL, bloom
filter, SSTable, min-heap, Levenshtein, LSM engine) and proofs of the frozen
claims about it.

Keys and values are Python `str`, modelled as `String` with the lexicographic
order (Mathlib's `LinearOrder String`, which matches Python's code-point
comparison).  Fallible paths of the Python code (IndexError on malformed
trees) are modelled by benign defaults; they are unreachable in the states
the claims quantify over.
-/

namespace StorageEngine

/-- The reserved deletion sentinel (`sstable.py`, `TOMBSTONE`). -/
def TOMBSTONE : String := "__TOMBSTONE__"

/-! ## List `sizeOf` preliminaries (for termination of nested recursion) -/

theorem one_le_sizeOf_list {α} [SizeOf α] (l : List α) : 1 ≤ sizeOf l := by
  cases l <;> simp <;> omega

theorem sizeOf_take_le {α} [SizeOf α] (n : Nat) (l : List α) :
    sizeOf (l.take n) ≤ sizeOf l := by
  induction l generalizing n with
  | nil => simp [List.take]
  | cons a l ih =>
    cases n with
    | zero => simp; have := one_le_sizeOf_list l; omega
    | succ m => simp [List.take]; have := ih m; omega

theorem sizeOf_drop_le {α} [SizeOf α] (n : Nat) (l : List α) :
    sizeOf (l.drop n) ≤ sizeOf l := by
  induction l generalizing n with
  | nil => simp [List.drop]
  | cons a l ih =>
    cases n with
    | zero => simp
    | succ m => simp [List.drop]; have := ih m; omega

/-! ## B-Tree nodes (`btree.py`, class `BTreeNode`) -/

/-- A node of the B-Tree: `leaf` flag, parallel `keys`/`values` lists and the
`child` list (`btree.py` lines 18–32). -/
inductive BTreeNode : Type where
  | mk (leaf : Bool) (keys : List String) (values : List String)
      (child : List BTreeNode)
deriving Inhabited

/-- The `leaf` attribute. -/
def BTreeNode.leaf : BTreeNode → Bool
  | .mk l _ _ _ => l

/-- The `keys` attribute. -/
def BTreeNode.keys : BTreeNode → List String
  | .mk _ ks _ _ => ks

/-- The `values` attribute. -/
def BTreeNode.values : BTreeNode → List String
  | .mk _ _ vs _ => vs

/-- The `child` attribute. -/
def BTreeNode.child : BTreeNode → List BTreeNode
  | .mk _ _ _ cs => cs

/-- Index computed by the scan `while i < len(keys) and k > keys[i]: i += 1`
(`btree.py`, `search` and `_update`): the number of leading keys below `k`. -/
def lowerIdx (k : String) (keys : List String) : Nat :=
  (keys.takeWhile (fun a => decide (a < k))).length

/-- Index computed by the right-to-left scan
`i = len(keys) - 1; while i >= 0 and k < keys[i]: i -= 1` followed by `i + 1`
(`btree.py`, `insert_non_full`): the insertion position for `k`. -/
def upperIdx (k : String) (keys : List String) : Nat :=
  keys.length - (keys.reverse.takeWhile (fun a => decide (k < a))).length

/-- `BTree.search` (`btree.py` lines 168–195).  Out-of-range accesses (which
would raise `IndexError` on malformed trees) return `none`. -/
def searchNode (k : String) : BTreeNode → Option String
  | .mk lf keys values child =>
    let i := lowerIdx k keys
    if i < keys.length ∧ keys.getD i "" = k then values[i]?
    else if lf then none
    else
      match h : child[i]? with
      | some c => searchNode k c
      | none => none
termination_by x => sizeOf x
decreasing_by
  have := List.sizeOf_lt_of_mem (List.getElem?_mem h)
  simp; omega

/-- `BTree._update` (`btree.py` lines 226–249), as a pure transformer: replace
the value stored at key `k` (the Python code mutates in place and reports
success by a boolean; a miss leaves the tree unchanged). -/
def updateNode (k v : String) : BTreeNode → BTreeNode
  | .mk lf keys values child =>
    let i := lowerIdx k keys
    if i < keys.length ∧ keys.getD i "" = k then
      .mk lf keys (values.set i v) child
    else if lf then .mk lf keys values child
    else
      match h : child[i]? with
      | some c => .mk lf keys values (child.set i (updateNode k v c))
      | none => .mk lf keys values child
termination_by x => sizeOf x
decreasing_by
  have := List.sizeOf_lt_of_mem (List.getElem?_mem h)
  simp; omega

/-- The node surgery of `BTree.split_child` (`btree.py` lines 144–166) on the
full child `y`: the truncated left node, the promoted key/value pair
`(y.keys[t-1], y.values[t-1])`, and the new right node `z`. -/
def splitNode (t : Nat) (y : BTreeNode) :
    BTreeNode × (String × String) × BTreeNode :=
  (BTreeNode.mk y.leaf (y.keys.take (t - 1)) (y.values.take (t - 1))
      (if y.leaf then y.child else y.child.take t),
   (y.keys.getD (t - 1) "", y.values.getD (t - 1) ""),
   BTreeNode.mk y.leaf ((y.keys.drop t).take (t - 1))
      ((y.values.drop t).take (t - 1))
      (if y.leaf then [] else (y.child.drop t).take t))

/-- `BTree.split_child(x, i)` (`btree.py` lines 144–166): promote the median
of child `i` into `x` and insert the new right node after position `i`.  A
missing child (Python `IndexError`) leaves `x` unchanged. -/
def splitChild (t : Nat) (x : BTreeNode) (i : Nat) : BTreeNode :=
  match x with
  | .mk lf keys values child =>
    match child[i]? with
    | none => .mk lf keys values child
    | some y =>
      let p := splitNode t y
      .mk lf (keys.insertIdx i p.2.1.1) (values.insertIdx i p.2.1.2)
        ((child.set i p.1).insertIdx (i + 1) p.2.2)

theorem sizeOf_splitNode_fst (t : Nat) (y : BTreeNode) :
    sizeOf (splitNode t y).1 ≤ sizeOf y := by
  obtain ⟨lf, ks, vs, cs⟩ := y
  simp [splitNode, BTreeNode.leaf, BTreeNode.keys, BTreeNode.values,
    BTreeNode.child]
  have h1 := sizeOf_take_le (t - 1) ks
  have h2 := sizeOf_take_le (t - 1) vs
  have h3 := sizeOf_take_le t cs
  cases lf <;> simp <;> omega

theorem sizeOf_splitNode_snd (t : Nat) (y : BTreeNode) :
    sizeOf (splitNode t y).2.2 ≤ sizeOf y := by
  obtain ⟨lf, ks, vs, cs⟩ := y
  simp [splitNode, BTreeNode.leaf, BTreeNode.keys, BTreeNode.values,
    BTreeNode.child]
  have h1 := le_trans (sizeOf_take_le (t - 1) (ks.drop t)) (sizeOf_drop_le t ks)
  have h2 := le_trans (sizeOf_take_le (t - 1) (vs.drop t)) (sizeOf_drop_le t vs)
  have h3 := le_trans (sizeOf_take_le t (cs.drop t)) (sizeOf_drop_le t cs)
  have h4 := one_le_sizeOf_list cs
  cases lf <;> simp <;> omega

/-- `BTree.insert_non_full` (`btree.py` lines 112–142) as a pure transformer.
On internal nodes a full target child is first split (the Python code calls
`split_child` on `x` and then descends into the mutated `x.child[i]`; here the
split pieces are computed by `splitNode` and the descended-into piece is
re-assembled at the same position, which is the same surgery). -/
def insertNonFull (t : Nat) (k v : String) : BTreeNode → BTreeNode
  | .mk true keys values child =>
    let i := upperIdx k keys
    .mk true (keys.insertIdx i k) (values.insertIdx i v) child
  | .mk false keys values child =>
    let i := upperIdx k keys
    if hlt : i < child.length then
      let c := child[i]
      if c.keys.length = 2 * t - 1 then
        let p := splitNode t c
        let keys' := keys.insertIdx i p.2.1.1
        let values' := values.insertIdx i p.2.1.2
        let child' := (child.set i p.1).insertIdx (i + 1) p.2.2
        if keys'.getD i "" < k then
          .mk false keys' values' (child'.set (i + 1) (insertNonFull t k v p.2.2))
        else
          .mk false keys' values' (child'.set i (insertNonFull t k v p.1))
      else
        .mk false keys values (child.set i (insertNonFull t k v c))
    else .mk false keys values child
termination_by x => sizeOf x
decreasing_by
  · have h1 := List.sizeOf_lt_of_mem (List.getElem_mem hlt)
    have h2 := sizeOf_splitNode_snd t child[upperIdx k keys]
    have h3 : sizeOf (child[i] : BTreeNode) =
        sizeOf (child[upperIdx k keys] : BTreeNode) := rfl
    simp; omega
  · have h1 := List.sizeOf_lt_of_mem (List.getElem_mem hlt)
    have h2 := sizeOf_splitNode_fst t child[upperIdx k keys]
    have h3 : sizeOf (child[i] : BTreeNode) =
        sizeOf (child[upperIdx k keys] : BTreeNode) := rfl
    simp; omega
  · have h1 := List.sizeOf_lt_of_mem (List.getElem_mem hlt)
    have h3 : sizeOf (child[i] : BTreeNode) =
        sizeOf (child[upperIdx k keys] : BTreeNode) := rfl
    simp; omega

/-- The root of a freshly constructed `BTree` (`btree.py` line 53:
`self.root = BTreeNode(True)`), before WAL recovery. -/
def emptyRoot : BTreeNode := .mk true [] [] []

/-- `BTree.insert` (`btree.py` lines 80–110), without the WAL side effect
(handled by the callers' state): update in place when the key exists,
otherwise split a full root and insert-non-full. -/
def insertTree (t : Nat) (x : BTreeNode) (k v : String) : BTreeNode :=
  if (searchNode k x).isSome then updateNode k v x
  else if x.keys.length = 2 * t - 1 then
    insertNonFull t k v (splitChild t (BTreeNode.mk false [] [] [x]) 0)
  else insertNonFull t k v x

mutual

/-- `BTree.items` / `BTree._items` (`btree.py` lines 197–224): in-order
enumeration. -/
def itemsNode : BTreeNode → List (String × String)
  | .mk true keys values _ => keys.zip values
  | .mk false keys values child => itemsGo (keys.zip values) child
termination_by x => sizeOf x
decreasing_by simp

/-- Interleaves the `(key, value)` pairs of an internal node with the
recursively enumerated children, as the Python index loop of `_items` does
under the parallel-lists invariant (malformed width mismatches, which raise
`IndexError` in Python, yield a truncated list here). -/
def itemsGo : List (String × String) → List BTreeNode → List (String × String)
  | [], [] => []
  | [], c :: _ => itemsNode c
  | _ :: _, [] => []
  | p :: ps, c :: cs => itemsNode c ++ p :: itemsGo ps cs
termination_by ps cs => sizeOf cs
decreasing_by
  all_goals simp
  all_goals omega

end

/-! ## Order-related predicates used to state B-Tree well-formedness -/

/-- `k` is above the optional strict lower bound `lo`. -/
def okLo (lo : Option String) (k : String) : Bool :=
  match lo with
  | none => true
  | some a => decide (a < k)

/-- `k` is below the optional strict upper bound `hi`. -/
def okHi (hi : Option String) (k : String) : Bool :=
  match hi with
  | none => true
  | some b => decide (k < b)

/-- The list is strictly ascending and every element lies strictly between
`lo` and `hi`. -/
def sortedIn (lo hi : Option String) : List String → Bool
  | [] => true
  | k :: ks => okLo lo k && okHi hi k && sortedIn (some k) hi ks

/-- First-match association lookup (the reference semantics of a key in a
list of records). -/
def lookupA (k : String) : List (String × String) → Option String
  | [] => none
  | p :: rest => if p.1 = k then some p.2 else lookupA k rest

/-- Sorted insertion of a fresh pair into an association list: the reference
effect of a B-Tree insertion on the in-order enumeration. -/
def insA (k v : String) : List (String × String) → List (String × String)
  | [] => [(k, v)]
  | p :: rest => if k < p.1 then (k, v) :: p :: rest else p :: insA k v rest

/-- In-place value replacement in an association list: the reference effect
of `BTree._update` on the in-order enumeration. -/
def updA (k v : String) (l : List (String × String)) :
    List (String × String) :=
  l.map (fun p => if p.1 = k then (p.1, v) else p)

/-- Number of leading keys `≤ k`; equal to `upperIdx` on sorted key lists. -/
def leIdx (k : String) (keys : List String) : Nat :=
  (keys.takeWhile (fun a => decide (a ≤ k))).length

/-! ## B-Tree well-formedness

`wfNode t lo hi isRoot x` captures the structural invariant of §4.3: parallel
`keys`/`values`, strictly ascending keys confined to `(lo, hi)`, key-count
bounds `t-1 ≤ n ≤ 2t-1` (lower bound waived at the root), childless leaves,
and, for internal nodes, one more child than keys with the children's key
ranges separated by the node's keys (`wfKids`). -/

mutual

def wfNode (t : Nat) (lo hi : Option String) (isRoot : Bool) :
    BTreeNode → Bool
  | .mk true keys values child =>
    child.isEmpty && decide (keys.length = values.length) &&
    sortedIn lo hi keys && decide (keys.length ≤ 2 * t - 1) &&
    (isRoot || decide (t - 1 ≤ keys.length))
  | .mk false keys values child =>
    decide (keys.length = values.length) && sortedIn lo hi keys &&
    decide (keys.length ≤ 2 * t - 1) &&
    (isRoot || decide (t - 1 ≤ keys.length)) &&
    decide (child.length = keys.length + 1) && wfKids t lo keys hi child
termination_by x => sizeOf x
decreasing_by simp

def wfKids (t : Nat) (lo : Option String) (keys : List String)
    (hi : Option String) : List BTreeNode → Bool
  | [] => false
  | [c] =>
    match keys with
    | [] => wfNode t lo hi false c
    | _ :: _ => false
  | c :: c' :: cs =>
    match keys with
    | [] => false
    | a :: ks => wfNode t lo (some a) false c && wfKids t (some a) ks hi (c' :: cs)
termination_by cs => sizeOf cs
decreasing_by
  all_goals simp
  all_goals omega

end

/-- Well-formedness of a whole tree rooted at `x`. -/
def wfRoot (t : Nat) (x : BTreeNode) : Bool :=
  wfNode t none none true x

/-! ## Custom induction principle for `BTreeNode` -/

theorem nodeInd (P : BTreeNode → Prop)
    (h : ∀ lf ks vs cs, (∀ c ∈ cs, P c) → P (BTreeNode.mk lf ks vs cs)) :
    ∀ x, P x := by
  have main : ∀ n x, sizeOf x ≤ n → P x := by
    intro n
    induction n with
    | zero =>
      intro x hx
      obtain ⟨lf, ks, vs, cs⟩ := x
      simp at hx
    | succ n ih =>
      intro x hx
      obtain ⟨lf, ks, vs, cs⟩ := x
      apply h
      intro c hc
      apply ih
      have := List.sizeOf_lt_of_mem hc
      simp at hx
      omega
  intro x
  exact main (sizeOf x) x le_rfl

/-! ## Basic lemmas about the order predicates and association lists -/


theorem okLo_trans {lo : Option String} {a k : String} (h1 : okLo lo a = true)
    (h2 : a < k) : okLo lo k = true := by
  cases lo with
  | none => rfl
  | some b =>
    simp only [okLo, decide_eq_true_eq] at h1 ⊢
    exact lt_trans h1 h2

theorem sortedIn_cons {lo hi : Option String} {a : String} {ks : List String} :
    sortedIn lo hi (a :: ks) =
      (okLo lo a && okHi hi a && sortedIn (some a) hi ks) := rfl

theorem sortedIn_weaken_lo {lo : Option String} {a : String}
    {hi : Option String} {l : List String} (h : sortedIn (some a) hi l = true)
    (hlo : okLo lo a = true) : sortedIn lo hi l = true := by
  cases l with
  | nil => rfl
  | cons k ks =>
    simp only [sortedIn_cons, Bool.and_eq_true] at h ⊢
    obtain ⟨⟨h1, h2⟩, h3⟩ := h
    simp only [okLo, decide_eq_true_eq] at h1
    exact ⟨⟨okLo_trans hlo h1, h2⟩, h3⟩

theorem sortedIn_mem {lo hi : Option String} {l : List String}
    (h : sortedIn lo hi l = true) {k : String} (hk : k ∈ l) :
    okLo lo k = true ∧ okHi hi k = true := by
  induction l generalizing lo with
  | nil => cases hk
  | cons a ks ih =>
    simp only [sortedIn_cons, Bool.and_eq_true] at h
    obtain ⟨⟨h1, h2⟩, h3⟩ := h
    rcases List.mem_cons.1 hk with rfl | hk'
    · exact ⟨h1, h2⟩
    · obtain ⟨ha, hb⟩ := ih h3 hk'
      refine ⟨?_, hb⟩
      simp only [okLo, decide_eq_true_eq] at ha
      exact okLo_trans h1 ha

theorem lookupA_append (k : String) (A B : List (String × String)) :
    lookupA k (A ++ B) = (lookupA k A).orElse (fun _ => lookupA k B) := by
  induction A with
  | nil => simp [lookupA]
  | cons p rest ih =>
    by_cases hp : p.1 = k <;> simp [lookupA, hp, ih]

theorem lookupA_eq_none {k : String} {l : List (String × String)}
    (h : ∀ p ∈ l, p.1 ≠ k) : lookupA k l = none := by
  induction l with
  | nil => rfl
  | cons p rest ih =>
    simp [lookupA, h p (List.mem_cons_self p rest)]
    exact ih (fun q hq => h q (List.mem_cons_of_mem p hq))

theorem mem_of_lookupA_ne_none {k : String} {l : List (String × String)}
    (h : lookupA k l ≠ none) : ∃ v, (k, v) ∈ l := by
  induction l with
  | nil => simp [lookupA] at h
  | cons p rest ih =>
    by_cases hp : p.1 = k
    · exact ⟨p.2, by simp [← hp]⟩
    · simp only [lookupA, if_neg hp] at h
      obtain ⟨v, hv⟩ := ih h
      exact ⟨v, List.mem_cons_of_mem p hv⟩

theorem lookupA_insA {k v k' : String} {l : List (String × String)}
    (h : lookupA k l = none) :
    lookupA k' (insA k v l) =
      if k' = k then some v else lookupA k' l := by
  induction l with
  | nil =>
    by_cases hk : k' = k <;> simp [insA, lookupA, hk]
    intro hcon
    exact absurd hcon.symm hk
  | cons p rest ih =>
    simp only [lookupA] at h
    have hp1 : ¬ (p.1 = k) := by
      intro hc
      simp [hc] at h
    simp only [if_neg hp1] at h
    by_cases hlt : k < p.1
    · simp only [insA, if_pos hlt, lookupA]
      by_cases hk : k' = k
      · simp [hk]
      · have : ¬ (k = k') := fun hc => hk hc.symm
        simp [if_neg this, hk]
    · simp only [insA, if_neg hlt, lookupA]
      by_cases hp : p.1 = k'
      · have hkk : ¬ (k' = k) := by
          intro hc
          exact hp1 (hp.trans hc)
        simp [if_pos hp, if_neg hkk]
      · simp [if_neg hp, ih h]

theorem insA_mem {k v : String} {l : List (String × String)}
    {p : String × String} (hp : p ∈ insA k v l) : p = (k, v) ∨ p ∈ l := by
  induction l with
  | nil => simp [insA] at hp; simp [hp]
  | cons q rest ih =>
    simp only [insA] at hp
    split at hp
    · rcases List.mem_cons.1 hp with h | h
      · exact Or.inl h
      · exact Or.inr h
    · rcases List.mem_cons.1 hp with h | h
      · exact Or.inr (by simp [h])
      · rcases ih h with h' | h'
        · exact Or.inl h'
        · exact Or.inr (List.mem_cons_of_mem q h')

/-! ## Characterising the Python scan indices on sorted keys -/

theorem length_takeWhile_le' {α} (p : α → Bool) (l : List α) :
    (l.takeWhile p).length ≤ l.length := by
  induction l with
  | nil => simp
  | cons x xs ih =>
    by_cases hx : p x = true <;> simp [List.takeWhile_cons, hx] <;> omega

theorem leIdx_cons (k a : String) (ks : List String) :
    leIdx k (a :: ks) = if a ≤ k then leIdx k ks + 1 else 0 := by
  by_cases h : a ≤ k
  · have hd : decide (a ≤ k) = true := decide_eq_true h
    rw [if_pos h]
    simp only [leIdx, List.takeWhile_cons, hd]
    simp
  · have hd : decide (a ≤ k) = false := decide_eq_false h
    rw [if_neg h]
    simp only [leIdx, List.takeWhile_cons, hd]
    simp

theorem lowerIdx_cons (k a : String) (ks : List String) :
    lowerIdx k (a :: ks) = if a < k then lowerIdx k ks + 1 else 0 := by
  by_cases h : a < k
  · have hd : decide (a < k) = true := decide_eq_true h
    rw [if_pos h]
    simp only [lowerIdx, List.takeWhile_cons, hd]
    simp
  · have hd : decide (a < k) = false := decide_eq_false h
    rw [if_neg h]
    simp only [lowerIdx, List.takeWhile_cons, hd]
    simp

theorem takeWhile_append_singleton_of_not {α} (p : α → Bool) (xs : List α)
    (a : α) (h : p a = false) :
    (xs ++ [a]).takeWhile p = xs.takeWhile p := by
  induction xs with
  | nil => simp [List.takeWhile_cons, h]
  | cons x xs ih =>
    by_cases hx : p x = true <;> simp [List.takeWhile_cons, hx, ih]

theorem takeWhile_eq_self_of_all {α} (p : α → Bool) (xs : List α)
    (h : ∀ x ∈ xs, p x = true) : xs.takeWhile p = xs := by
  induction xs with
  | nil => rfl
  | cons x xs ih =>
    have hx := h x (List.mem_cons_self x xs)
    have := ih (fun y hy => h y (List.mem_cons_of_mem x hy))
    simp [List.takeWhile_cons, hx, this]

theorem upperIdx_eq_leIdx {k : String} {keys : List String}
    {lo hi : Option String} (h : sortedIn lo hi keys = true) :
    upperIdx k keys = leIdx k keys := by
  induction keys generalizing lo with
  | nil => rfl
  | cons a ks ih =>
    simp only [sortedIn_cons, Bool.and_eq_true] at h
    obtain ⟨⟨h1, h2⟩, h3⟩ := h
    by_cases hak : a ≤ k
    · have hna : decide (k < a) = false := decide_eq_false (not_lt.2 hak)
      have heq : ((a :: ks).reverse.takeWhile (fun x => decide (k < x))) =
          (ks.reverse.takeWhile (fun x => decide (k < x))) := by
        rw [List.reverse_cons]
        exact takeWhile_append_singleton_of_not _ _ _ hna
      have hlen : (ks.reverse.takeWhile (fun x => decide (k < x))).length ≤ ks.length := by
        calc (ks.reverse.takeWhile (fun x => decide (k < x))).length
            ≤ ks.reverse.length := length_takeWhile_le' _ _
          _ = ks.length := List.length_reverse ks
      have hih := ih h3
      rw [leIdx_cons, if_pos hak]
      unfold upperIdx at hih ⊢
      rw [heq]
      simp only [List.length_cons]
      omega
    · have hka : k < a := not_le.1 hak
      have hall : ∀ x ∈ (a :: ks).reverse, (fun x => decide (k < x)) x = true := by
        intro x hx
        rw [List.mem_reverse] at hx
        rcases List.mem_cons.1 hx with rfl | hx'
        · simp [hka]
        · have hm := sortedIn_mem h3 hx'
          simp only [okLo, decide_eq_true_eq] at hm
          simp [lt_trans hka hm.1]
      have heq : ((a :: ks).reverse.takeWhile (fun x => decide (k < x))) =
          (a :: ks).reverse := takeWhile_eq_self_of_all _ _ hall
      rw [leIdx_cons, if_neg hak]
      unfold upperIdx
      rw [heq]
      simp

/-! ## Bounds on enumerated items of a well-formed node -/

theorem okHi_trans {hi : Option String} {a k : String} (h1 : okHi hi a = true)
    (h2 : k < a) : okHi hi k = true := by
  cases hi with
  | none => rfl
  | some b =>
    simp only [okHi, decide_eq_true_eq] at h1 ⊢
    exact lt_trans h2 h1

theorem itemsNode_bounds :
    ∀ x : BTreeNode, ∀ t : Nat, ∀ lo hi : Option String, ∀ r : Bool,
      wfNode t lo hi r x = true →
      ∀ p ∈ itemsNode x, okLo lo p.1 = true ∧ okHi hi p.1 = true := by
  have aux : ∀ (hi : Option String) (t : Nat) (child : List BTreeNode),
      (∀ c ∈ child, ∀ lo' hi' : Option String, ∀ r : Bool,
        wfNode t lo' hi' r c = true →
        ∀ p ∈ itemsNode c, okLo lo' p.1 = true ∧ okHi hi' p.1 = true) →
      ∀ (keys values : List String) (lo : Option String),
      wfKids t lo keys hi child = true →
      sortedIn lo hi keys = true →
      ∀ p ∈ itemsGo (keys.zip values) child,
        okLo lo p.1 = true ∧ okHi hi p.1 = true := by
    intro hi t child
    induction child with
    | nil => intro _ keys values lo hk; simp [wfKids] at hk
    | cons c cs ihc =>
      intro hnode keys values lo hk hs p hp
      cases cs with
      | nil =>
        cases keys with
        | nil =>
          simp only [List.zip_nil_left, itemsGo] at hp
          exact hnode c (List.mem_cons_self c []) lo hi false
            (by simpa [wfKids] using hk) p hp
        | cons a ks => simp [wfKids] at hk
      | cons c' cs' =>
        cases keys with
        | nil => simp [wfKids] at hk
        | cons a ks =>
          simp only [wfKids, Bool.and_eq_true] at hk
          obtain ⟨hc, hks⟩ := hk
          simp only [sortedIn_cons, Bool.and_eq_true] at hs
          obtain ⟨⟨hla, hha⟩, hs'⟩ := hs
          cases values with
          | nil =>
            simp only [List.zip_nil_right, itemsGo] at hp
            have := hnode c (List.mem_cons_self c _) lo (some a) false hc p hp
            refine ⟨this.1, ?_⟩
            have h2 := this.2
            simp only [okHi, decide_eq_true_eq] at h2
            exact okHi_trans hha h2
          | cons b vs =>
            simp only [List.zip_cons_cons, itemsGo, List.mem_append,
              List.mem_cons] at hp
            rcases hp with hp | hp | hp
            · have := hnode c (List.mem_cons_self c _) lo (some a) false hc p hp
              refine ⟨this.1, ?_⟩
              have h2 := this.2
              simp only [okHi, decide_eq_true_eq] at h2
              exact okHi_trans hha h2
            · subst hp
              exact ⟨hla, hha⟩
            · have := ihc (fun c hc => hnode c (List.mem_cons_of_mem _ hc))
                ks vs (some a) hks hs' p hp
              refine ⟨?_, this.2⟩
              have h1 := this.1
              simp only [okLo, decide_eq_true_eq] at h1
              exact okLo_trans hla h1
  intro x
  induction x using nodeInd with
  | h lf ks vs cs ih =>
    intro t lo hi r hwf p hp
    cases lf with
    | true =>
      simp only [wfNode, Bool.and_eq_true] at hwf
      obtain ⟨⟨⟨⟨_, _⟩, hs⟩, _⟩, _⟩ := hwf
      simp only [itemsNode] at hp
      have hk : p.1 ∈ ks := (List.of_mem_zip hp).1
      exact sortedIn_mem hs hk
    | false =>
      simp only [wfNode, Bool.and_eq_true] at hwf
      obtain ⟨⟨⟨⟨⟨_, hs⟩, _⟩, _⟩, _⟩, hkids⟩ := hwf
      simp only [itemsNode] at hp
      exact aux hi t cs (fun c hc lo' hi' r' hw q hq => ih c hc t lo' hi' r' hw q hq)
        ks vs lo hkids hs p hp

/-! ## Search correctness on well-formed trees -/


theorem lookup_zip_sorted {k : String} :
    ∀ (keys values : List String) (lo hi : Option String),
      sortedIn lo hi keys = true →
      lookupA k (keys.zip values) =
        (if lowerIdx k keys < keys.length ∧ keys.getD (lowerIdx k keys) "" = k
         then values[lowerIdx k keys]? else none) := by
  intro keys
  induction keys with
  | nil => intro values lo hi _; simp [lookupA, lowerIdx]
  | cons a ks ih =>
    intro values lo hi hs
    simp only [sortedIn_cons, Bool.and_eq_true] at hs
    obtain ⟨⟨hla, hha⟩, hs'⟩ := hs
    cases values with
    | nil =>
      simp only [List.zip_nil_right, lookupA]
      split
      · simp
      · rfl
    | cons b vs =>
      rw [lowerIdx_cons]
      by_cases hak : a < k
      · rw [if_pos hak]
        have hne : ¬ (a = k) := ne_of_lt hak
        have hstep : lookupA k ((a :: ks).zip (b :: vs)) = lookupA k (ks.zip vs) := by
          rw [List.zip_cons_cons]
          simp only [lookupA, if_neg hne]
        rw [hstep, ih vs (some a) hi hs']
        simp only [List.length_cons, List.getD_cons_succ, List.getElem?_cons_succ]
        simp [Nat.add_lt_add_iff_right]
      · rw [if_neg hak]
        have hunf : lookupA k ((a :: ks).zip (b :: vs)) =
            (if a = k then some b else lookupA k (ks.zip vs)) := by
          rw [List.zip_cons_cons]
          rfl
        rw [hunf]
        by_cases hek : a = k
        · rw [if_pos hek]
          rw [if_pos ⟨Nat.succ_pos _, by simpa using hek⟩]
          simp
        · have hka : k < a := lt_of_le_of_ne (not_lt.1 hak) (fun h => hek h.symm)
          rw [if_neg hek]
          have hnone : lookupA k (ks.zip vs) = none := by
            apply lookupA_eq_none
            intro p hp
            have hmem := (List.of_mem_zip hp).1
            have := sortedIn_mem hs' hmem
            simp only [okLo, decide_eq_true_eq] at this
            exact ne_of_gt (lt_trans hka this.1)
          rw [hnone, if_neg]
          intro hcon
          exact hek (by simpa using hcon.2)

theorem itemsGo_bounds {t : Nat} {hi : Option String} :
    ∀ (child : List BTreeNode) (keys values : List String) (lo : Option String),
      wfKids t lo keys hi child = true →
      sortedIn lo hi keys = true →
      ∀ p ∈ itemsGo (keys.zip values) child,
        okLo lo p.1 = true ∧ okHi hi p.1 = true := by
  intro child
  induction child with
  | nil => intro keys values lo hk; simp [wfKids] at hk
  | cons c cs ihc =>
    intro keys values lo hk hs p hp
    cases cs with
    | nil =>
      cases keys with
      | nil =>
        simp only [List.zip_nil_left, itemsGo] at hp
        exact itemsNode_bounds c t lo hi false (by simpa [wfKids] using hk) p hp
      | cons a ks => simp [wfKids] at hk
    | cons c' cs' =>
      cases keys with
      | nil => simp [wfKids] at hk
      | cons a ks =>
        simp only [wfKids, Bool.and_eq_true] at hk
        obtain ⟨hc, hks⟩ := hk
        simp only [sortedIn_cons, Bool.and_eq_true] at hs
        obtain ⟨⟨hla, hha⟩, hs'⟩ := hs
        have hcb := itemsNode_bounds c t lo (some a) false hc
        cases values with
        | nil =>
          simp only [List.zip_nil_right, itemsGo] at hp
          have := hcb p hp
          refine ⟨this.1, ?_⟩
          have h2 := this.2
          simp only [okHi, decide_eq_true_eq] at h2
          exact okHi_trans hha h2
        | cons b vs =>
          simp only [List.zip_cons_cons, itemsGo, List.mem_append,
            List.mem_cons] at hp
          rcases hp with hp | hp | hp
          · have := hcb p hp
            refine ⟨this.1, ?_⟩
            have h2 := this.2
            simp only [okHi, decide_eq_true_eq] at h2
            exact okHi_trans hha h2
          · subst hp
            exact ⟨hla, hha⟩
          · have := ihc ks vs (some a) hks hs' p hp
            refine ⟨?_, this.2⟩
            have h1 := this.1
            simp only [okLo, decide_eq_true_eq] at h1
            exact okLo_trans hla h1

/-- Elimination helper: the segment-descent step of `BTree.search` as a
function of the optionally found child. -/
def descend (k : String) : Option BTreeNode → Option String
  | some c => searchNode k c
  | none => none

theorem searchGo {t : Nat} {hi : Option String} {k : String} :
    ∀ (child : List BTreeNode) (keys values : List String) (lo : Option String),
      (∀ c ∈ child, ∀ lo' hi' : Option String, ∀ r : Bool,
          wfNode t lo' hi' r c = true →
          searchNode k c = lookupA k (itemsNode c)) →
      wfKids t lo keys hi child = true →
      sortedIn lo hi keys = true →
      keys.length = values.length →
      (if lowerIdx k keys < keys.length ∧ keys.getD (lowerIdx k keys) "" = k
       then values[lowerIdx k keys]?
       else descend k child[lowerIdx k keys]?) =
        lookupA k (itemsGo (keys.zip values) child) := by
  intro child
  induction child with
  | nil => intro keys values lo _ hk; simp [wfKids] at hk
  | cons c cs ihc =>
    intro keys values lo hnode hk hs hlen
    cases cs with
    | nil =>
      cases keys with
      | nil =>
        have hv : values = [] := by
          cases values with
          | nil => rfl
          | cons b vs => simp at hlen
        subst hv
        simp only [lowerIdx, List.takeWhile_nil, List.length_nil, List.zip_nil_left,
          itemsGo]
        rw [if_neg (by simp)]
        have hw : wfNode t lo hi false c = true := by simpa [wfKids] using hk
        have hd : descend k (([c] : List BTreeNode)[(0 : Nat)]?) = searchNode k c := by
          simp [descend]
        rw [hd]
        exact hnode c (List.mem_cons_self c []) lo hi false hw
      | cons a ks => simp [wfKids] at hk
    | cons c' cs' =>
      cases keys with
      | nil => simp [wfKids] at hk
      | cons a ks =>
        simp only [wfKids, Bool.and_eq_true] at hk
        obtain ⟨hc, hks⟩ := hk
        simp only [sortedIn_cons, Bool.and_eq_true] at hs
        obtain ⟨⟨hla, hha⟩, hs'⟩ := hs
        cases values with
        | nil => simp at hlen
        | cons b vs =>
          have hlen' : ks.length = vs.length := by simpa using hlen
          have hcitems := itemsNode_bounds c t lo (some a) false hc
          rw [List.zip_cons_cons]
          have hgo : itemsGo ((a, b) :: ks.zip vs) (c :: c' :: cs') =
              itemsNode c ++ (a, b) :: itemsGo (ks.zip vs) (c' :: cs') := by
            simp [itemsGo]
          rw [hgo, lowerIdx_cons]
          by_cases hak : a < k
          · rw [if_pos hak]
            have hcnone : lookupA k (itemsNode c) = none := by
              apply lookupA_eq_none
              intro p hp
              have := (hcitems p hp).2
              simp only [okHi, decide_eq_true_eq] at this
              exact ne_of_lt (lt_trans this hak)
            rw [lookupA_append, hcnone]
            have hstep : lookupA k ((a, b) :: itemsGo (ks.zip vs) (c' :: cs')) =
                lookupA k (itemsGo (ks.zip vs) (c' :: cs')) := by
              simp only [lookupA, if_neg (ne_of_lt hak)]
            simp only [Option.orElse]
            rw [hstep]
            have hih := ihc ks vs (some a)
              (fun c hc => hnode c (List.mem_cons_of_mem _ hc)) hks hs' hlen'
            rw [← hih]
            simp only [List.length_cons, List.getD_cons_succ,
              List.getElem?_cons_succ]
            by_cases hcond : lowerIdx k ks < ks.length ∧ ks.getD (lowerIdx k ks) "" = k
            · rw [if_pos hcond, if_pos ⟨by omega, hcond.2⟩]
            · rw [if_neg hcond, if_neg (by
                intro hcon
                exact hcond ⟨by omega, hcon.2⟩)]
          · rw [if_neg hak]
            by_cases hek : a = k
            · rw [if_pos ⟨Nat.succ_pos _, by simpa using hek⟩]
              have hcnone : lookupA k (itemsNode c) = none := by
                apply lookupA_eq_none
                intro p hp
                have := (hcitems p hp).2
                simp only [okHi, decide_eq_true_eq] at this
                exact ne_of_lt (hek ▸ this)
              rw [lookupA_append, hcnone]
              simp only [Option.orElse]
              simp [lookupA, hek]
            · have hka : k < a := lt_of_le_of_ne (not_lt.1 hak) (fun h => hek h.symm)
              rw [if_neg (by
                intro hcon
                exact hek (by simpa using hcon.2))]
              have hrest : lookupA k ((a, b) :: itemsGo (ks.zip vs) (c' :: cs')) = none := by
                have htail : lookupA k (itemsGo (ks.zip vs) (c' :: cs')) = none := by
                  apply lookupA_eq_none
                  intro p hp
                  have := (itemsGo_bounds (c' :: cs') ks vs (some a) hks hs' p hp).1
                  simp only [okLo, decide_eq_true_eq] at this
                  exact ne_of_gt (lt_trans hka this)
                simp only [lookupA, if_neg hek, htail]
              rw [lookupA_append, hrest]
              have hzero : descend k ((c :: c' :: cs')[(0 : Nat)]?) = searchNode k c := by
                simp [descend]
              rw [hzero]
              cases hcl : lookupA k (itemsNode c) with
              | none =>
                simp only [Option.orElse]
                rw [← hcl]
                exact hnode c (List.mem_cons_self c _) lo (some a) false hc
              | some w =>
                simp only [Option.orElse]
                rw [← hcl]
                exact hnode c (List.mem_cons_self c _) lo (some a) false hc

/-- On a well-formed (sub)tree, `BTree.search` computes exactly the
association-list lookup over the in-order enumeration. -/
theorem searchNode_eq_lookup {t : Nat} :
    ∀ x : BTreeNode, ∀ lo hi : Option String, ∀ r : Bool, ∀ k : String,
      wfNode t lo hi r x = true →
      searchNode k x = lookupA k (itemsNode x) := by
  intro x
  induction x using nodeInd with
  | h lf ks vs cs ih =>
    intro lo hi r k hwf
    cases lf with
    | true =>
      simp only [wfNode, Bool.and_eq_true] at hwf
      obtain ⟨⟨⟨⟨_, _⟩, hs⟩, _⟩, _⟩ := hwf
      simp only [searchNode, itemsNode]
      rw [lookup_zip_sorted ks vs lo hi hs]
      split
      · rfl
      · rfl
    | false =>
      simp only [wfNode, Bool.and_eq_true] at hwf
      obtain ⟨⟨⟨⟨⟨hlen, hs⟩, _⟩, _⟩, _⟩, hkids⟩ := hwf
      simp only [searchNode, itemsNode, Bool.false_eq_true, if_false]
      have hmatch : (match h : cs[lowerIdx k ks]? with
          | some c => searchNode k c
          | none => none) = descend k cs[lowerIdx k ks]? := by
        split
        · rename_i c hx
          simp [descend, hx]
        · rename_i hx
          simp [descend, hx]
      rw [hmatch]
      exact searchGo cs ks vs lo
        (fun c hc lo' hi' r' hw => ih c hc lo' hi' r' k hw)
        hkids hs (by exact_mod_cast of_decide_eq_true hlen)

/-! ## Correctness of `BTree._update` on well-formed trees -/

/-- The child-replacement step of `_update` as a function of the child list
and the descent index. -/
def updGo (k v : String) (child : List BTreeNode) (i : Nat) : List BTreeNode :=
  match child[i]? with
  | some c => child.set i (updateNode k v c)
  | none => child

theorem updGo_cons_succ (k v : String) (c : BTreeNode) (cs : List BTreeNode)
    (i : Nat) : updGo k v (c :: cs) (i + 1) = c :: updGo k v cs i := by
  cases hx : cs[i]? with
  | some c' => simp [updGo, hx]
  | none => simp [updGo, hx]

theorem updGo_cons_zero (k v : String) (c : BTreeNode) (cs : List BTreeNode) :
    updGo k v (c :: cs) 0 = updateNode k v c :: cs := by
  simp [updGo]

theorem updA_append (k v : String) (A B : List (String × String)) :
    updA k v (A ++ B) = updA k v A ++ updA k v B := by
  simp [updA]

theorem updA_id {k : String} (v : String) {l : List (String × String)}
    (h : ∀ p ∈ l, p.1 ≠ k) : updA k v l = l := by
  induction l with
  | nil => rfl
  | cons p rest ih =>
    simp only [updA, List.map_cons, if_neg (h p (List.mem_cons_self p rest))]
    rw [show List.map (fun p => if p.1 = k then (p.1, v) else p) rest =
        updA k v rest from rfl]
    rw [ih (fun q hq => h q (List.mem_cons_of_mem p hq))]

theorem zip_set_right (keys values : List String) (i : Nat) (v : String)
    (hi : i < keys.length) (hlen : keys.length = values.length) :
    keys.zip (values.set i v) = (keys.zip values).set i (keys.getD i "", v) := by
  induction keys generalizing values i with
  | nil => simp at hi
  | cons a ks ih =>
    cases values with
    | nil => simp at hlen
    | cons b vs =>
      cases i with
      | zero => simp
      | succ j =>
        simp only [List.set_cons_succ, List.zip_cons_cons, List.getD_cons_succ]
        rw [ih vs j (by simpa using hi) (by simpa using hlen)]

theorem updLeaf {k v : String} :
    ∀ (keys values : List String) (lo hi : Option String),
      sortedIn lo hi keys = true →
      (if lowerIdx k keys < keys.length ∧ keys.getD (lowerIdx k keys) "" = k
       then keys.zip (values.set (lowerIdx k keys) v)
       else keys.zip values) = updA k v (keys.zip values) := by
  intro keys
  induction keys with
  | nil => intro values lo hi _; simp [lowerIdx, updA]
  | cons a ks ih =>
    intro values lo hi hs
    simp only [sortedIn_cons, Bool.and_eq_true] at hs
    obtain ⟨⟨hla, hha⟩, hs'⟩ := hs
    cases values with
    | nil =>
      simp only [List.zip_nil_right, updA, List.map_nil]
      split <;> simp
    | cons b vs =>
      rw [lowerIdx_cons]
      by_cases hak : a < k
      · rw [if_pos hak]
        have hne : ¬ (a = k) := ne_of_lt hak
        have hupd : updA k v ((a :: ks).zip (b :: vs)) =
            (a, b) :: updA k v (ks.zip vs) := by
          simp [updA, hne]
        rw [hupd]
        have hih := ih vs (some a) hi hs'
        by_cases hcond : lowerIdx k ks < ks.length ∧ ks.getD (lowerIdx k ks) "" = k
        · rw [if_pos (by
            constructor
            · simp; omega
            · simpa using hcond.2)]
          rw [if_pos hcond] at hih
          simp only [List.set_cons_succ, List.zip_cons_cons]
          rw [hih]
        · rw [if_neg (by
            intro hcon
            refine hcond ⟨?_, ?_⟩
            · have := hcon.1; simp at this; omega
            · simpa using hcon.2)]
          rw [if_neg hcond] at hih
          simp only [List.zip_cons_cons]
          exact congrArg (List.cons (a, b)) hih
      · rw [if_neg hak]
        by_cases hek : a = k
        · rw [if_pos ⟨Nat.succ_pos _, by simpa using hek⟩]
          have hrest : updA k v (ks.zip vs) = ks.zip vs := by
            apply updA_id
            intro p hp
            have := sortedIn_mem hs' (List.of_mem_zip hp).1
            simp only [okLo, decide_eq_true_eq] at this
            exact ne_of_gt (hek ▸ this.1)
          have hstep : updA k v ((a :: ks).zip (b :: vs)) =
              (a, v) :: updA k v (ks.zip vs) := by
            simp only [List.zip_cons_cons, updA, List.map_cons]
            rw [if_pos hek]
          rw [hstep, hrest]
          simp
        · have hka : k < a := lt_of_le_of_ne (not_lt.1 hak) (fun h => hek h.symm)
          rw [if_neg (by
            intro hcon
            exact hek (by simpa using hcon.2))]
          have hall : updA k v ((a :: ks).zip (b :: vs)) = (a :: ks).zip (b :: vs) := by
            apply updA_id
            intro p hp
            have hmem := (List.of_mem_zip hp).1
            rcases List.mem_cons.1 hmem with hh | hh
            · exact hh ▸ hek
            · have := sortedIn_mem hs' hh
              simp only [okLo, decide_eq_true_eq] at this
              exact ne_of_gt (lt_trans hka this.1)
          rw [hall]

theorem itemsGo_cons_cons (p : String × String) (ps : List (String × String))
    (c : BTreeNode) (cs : List BTreeNode) :
    itemsGo (p :: ps) (c :: cs) = itemsNode c ++ p :: itemsGo ps cs := by
  cases cs <;> simp [itemsGo]

theorem wfKids_cons {t : Nat} {lo hi : Option String} (a : String)
    (ks : List String) (c : BTreeNode) (cs : List BTreeNode) (hcs : cs ≠ []) :
    wfKids t lo (a :: ks) hi (c :: cs) =
      (wfNode t lo (some a) false c && wfKids t (some a) ks hi cs) := by
  cases cs with
  | nil => exact absurd rfl hcs
  | cons c' cs'' => simp [wfKids]

theorem updGo_ne_nil {k v : String} {cs : List BTreeNode} (h : cs ≠ []) (i : Nat) :
    updGo k v cs i ≠ [] := by
  cases cs with
  | nil => exact absurd rfl h
  | cons c cs' =>
    cases hx : (c :: cs')[i]? with
    | some w =>
      simp only [updGo, hx]
      intro hcon
      have := congrArg List.length hcon
      simp at this
    | none => simp [updGo, hx, h]

theorem updGoAux {t : Nat} {hi : Option String} {k v : String} :
    ∀ (child : List BTreeNode) (keys values : List String) (lo : Option String),
      (∀ c ∈ child, ∀ lo' hi' : Option String, ∀ r : Bool,
          wfNode t lo' hi' r c = true →
          wfNode t lo' hi' r (updateNode k v c) = true ∧
          itemsNode (updateNode k v c) = updA k v (itemsNode c)) →
      wfKids t lo keys hi child = true →
      sortedIn lo hi keys = true →
      keys.length = values.length →
      ((lowerIdx k keys < keys.length ∧ keys.getD (lowerIdx k keys) "" = k) →
        itemsGo (keys.zip (values.set (lowerIdx k keys) v)) child =
          updA k v (itemsGo (keys.zip values) child)) ∧
      (¬ (lowerIdx k keys < keys.length ∧ keys.getD (lowerIdx k keys) "" = k) →
        wfKids t lo keys hi (updGo k v child (lowerIdx k keys)) = true ∧
        itemsGo (keys.zip values) (updGo k v child (lowerIdx k keys)) =
          updA k v (itemsGo (keys.zip values) child)) := by
  intro child
  induction child with
  | nil => intro keys values lo _ hk; simp [wfKids] at hk
  | cons c cs ihc =>
    intro keys values lo hnode hk hs hlen
    cases cs with
    | nil =>
      cases keys with
      | nil =>
        have hv : values = [] := by
          cases values with
          | nil => rfl
          | cons b vs => simp at hlen
        subst hv
        constructor
        · intro hcon
          simp [lowerIdx] at hcon
        · intro _
          have hw : wfNode t lo hi false c = true := by simpa [wfKids] using hk
          have hres := hnode c (List.mem_cons_self c []) lo hi false hw
          rw [show lowerIdx k ([] : List String) = 0 from rfl, updGo_cons_zero]
          constructor
          · simpa [wfKids] using hres.1
          · simpa [itemsGo] using hres.2
      | cons a ks => simp [wfKids] at hk
    | cons c' cs' =>
      cases keys with
      | nil => simp [wfKids] at hk
      | cons a ks =>
        simp only [wfKids, Bool.and_eq_true] at hk
        obtain ⟨hc, hks⟩ := hk
        simp only [sortedIn_cons, Bool.and_eq_true] at hs
        obtain ⟨⟨hla, hha⟩, hs'⟩ := hs
        cases values with
        | nil => simp at hlen
        | cons b vs =>
          have hlen' : ks.length = vs.length := by simpa using hlen
          have hcitems := itemsNode_bounds c t lo (some a) false hc
          rw [lowerIdx_cons]
          by_cases hak : a < k
          · -- descend to the right of the head key
            have hne : ¬ (a = k) := ne_of_lt hak
            have hcnone : updA k v (itemsNode c) = itemsNode c := by
              apply updA_id
              intro p hp
              have := (hcitems p hp).2
              simp only [okHi, decide_eq_true_eq] at this
              exact ne_of_lt (lt_trans this hak)
            have hih := ihc ks vs (some a)
              (fun c hc => hnode c (List.mem_cons_of_mem _ hc)) hks hs' hlen'
            rw [if_pos hak]
            constructor
            · intro hcond
              have hcond' : lowerIdx k ks < ks.length ∧ ks.getD (lowerIdx k ks) "" = k := by
                refine ⟨?_, by simpa using hcond.2⟩
                have := hcond.1
                simp at this
                omega
              simp only [List.set_cons_succ, List.zip_cons_cons]
              rw [itemsGo_cons_cons, itemsGo_cons_cons, updA_append]
              rw [hih.1 hcond']
              have hpair : updA k v ((a, b) :: itemsGo (ks.zip vs) (c' :: cs')) =
                  (a, b) :: updA k v (itemsGo (ks.zip vs) (c' :: cs')) := by
                simp only [updA, List.map_cons, if_neg hne]
              rw [hpair, hcnone]
            · intro hcond
              have hcond' : ¬ (lowerIdx k ks < ks.length ∧ ks.getD (lowerIdx k ks) "" = k) := by
                intro hcon
                exact hcond ⟨by simp; omega, by simpa using hcon.2⟩
              obtain ⟨hw', hi'⟩ := hih.2 hcond'
              rw [updGo_cons_succ]
              constructor
              · rw [wfKids_cons a ks c _ (updGo_ne_nil (by simp) _),
                  Bool.and_eq_true]
                exact ⟨hc, hw'⟩
              · simp only [List.zip_cons_cons]
                rw [itemsGo_cons_cons, itemsGo_cons_cons, updA_append, hi']
                have hpair : updA k v ((a, b) :: itemsGo (ks.zip vs) (c' :: cs')) =
                    (a, b) :: updA k v (itemsGo (ks.zip vs) (c' :: cs')) := by
                  simp only [updA, List.map_cons, if_neg hne]
                rw [hpair, hcnone]
          · rw [if_neg hak]
            by_cases hek : a = k
            · -- hit at the head key
              constructor
              · intro _
                have hcnone : updA k v (itemsNode c) = itemsNode c := by
                  apply updA_id
                  intro p hp
                  have := (hcitems p hp).2
                  simp only [okHi, decide_eq_true_eq] at this
                  exact ne_of_lt (hek ▸ this)
                have hrest : updA k v (itemsGo (ks.zip vs) (c' :: cs')) =
                    itemsGo (ks.zip vs) (c' :: cs') := by
                  apply updA_id
                  intro p hp
                  have := (itemsGo_bounds (c' :: cs') ks vs (some a) hks hs' p hp).1
                  simp only [okLo, decide_eq_true_eq] at this
                  exact ne_of_gt (hek ▸ this)
                simp only [List.set_cons_zero, List.zip_cons_cons]
                rw [itemsGo_cons_cons, itemsGo_cons_cons, updA_append, hcnone]
                have hpair : updA k v ((a, b) :: itemsGo (ks.zip vs) (c' :: cs')) =
                    (a, v) :: updA k v (itemsGo (ks.zip vs) (c' :: cs')) := by
                  simp only [updA, List.map_cons]
                  rw [if_pos hek]
                rw [hpair, hrest]
              · intro hcon
                exact absurd ⟨Nat.succ_pos _, by simpa using hek⟩ hcon
            · -- strict miss at this node: descend into the head child
              have hka : k < a := lt_of_le_of_ne (not_lt.1 hak) (fun h => hek h.symm)
              constructor
              · intro hcon
                exact absurd (by simpa using hcon.2) hek
              · intro _
                have hres := hnode c (List.mem_cons_self c _) lo (some a) false hc
                rw [updGo_cons_zero]
                constructor
                · simp only [wfKids, Bool.and_eq_true]
                  exact ⟨hres.1, hks⟩
                · simp only [List.zip_cons_cons]
                  rw [itemsGo_cons_cons, itemsGo_cons_cons, updA_append, hres.2]
                  have hrest : updA k v (itemsGo (ks.zip vs) (c' :: cs')) =
                      itemsGo (ks.zip vs) (c' :: cs') := by
                    apply updA_id
                    intro p hp
                    have := (itemsGo_bounds (c' :: cs') ks vs (some a) hks hs' p hp).1
                    simp only [okLo, decide_eq_true_eq] at this
                    exact ne_of_gt (lt_trans hka this)
                  have hpair : updA k v ((a, b) :: itemsGo (ks.zip vs) (c' :: cs')) =
                      (a, b) :: updA k v (itemsGo (ks.zip vs) (c' :: cs')) := by
                    simp only [updA, List.map_cons, if_neg hek]
                  rw [hpair, hrest]

theorem updGo_length (k v : String) (cs : List BTreeNode) (i : Nat) :
    (updGo k v cs i).length = cs.length := by
  cases hx : cs[i]? with
  | some c => simp [updGo, hx]
  | none => simp [updGo, hx]

/-- `_update` preserves well-formedness and acts on the enumeration as the
pointwise value replacement `updA`. -/
theorem updateNode_correct {t : Nat} {k v : String} :
    ∀ x : BTreeNode, ∀ lo hi : Option String, ∀ r : Bool,
      wfNode t lo hi r x = true →
      wfNode t lo hi r (updateNode k v x) = true ∧
      itemsNode (updateNode k v x) = updA k v (itemsNode x) := by
  intro x
  induction x using nodeInd with
  | h lf ks vs cs ih =>
    intro lo hi r hwf
    cases lf with
    | true =>
      have hwf' := hwf
      simp only [wfNode, Bool.and_eq_true] at hwf'
      obtain ⟨⟨⟨⟨hemp, hlen⟩, hs⟩, hmax⟩, hmin⟩ := hwf'
      have hul := @updLeaf k v ks vs lo hi hs
      by_cases hcond : lowerIdx k ks < ks.length ∧ ks.getD (lowerIdx k ks) "" = k
      · have hbody : updateNode k v (BTreeNode.mk true ks vs cs) =
            BTreeNode.mk true ks (vs.set (lowerIdx k ks) v) cs := by
          simp only [updateNode, if_pos hcond]
        rw [hbody]
        constructor
        · simp only [wfNode, Bool.and_eq_true]
          refine ⟨⟨⟨⟨hemp, ?_⟩, hs⟩, hmax⟩, hmin⟩
          simp only [decide_eq_true_eq] at hlen ⊢
          simp [hlen]
        · simp only [itemsNode]
          rw [if_pos hcond] at hul
          exact hul
      · have hbody : updateNode k v (BTreeNode.mk true ks vs cs) =
            BTreeNode.mk true ks vs cs := by
          simp only [updateNode, if_neg hcond]
          simp
        rw [hbody]
        refine ⟨hwf, ?_⟩
        simp only [itemsNode]
        rw [if_neg hcond] at hul
        exact hul
    | false =>
      have hwf' := hwf
      simp only [wfNode, Bool.and_eq_true] at hwf'
      obtain ⟨⟨⟨⟨⟨hlen, hs⟩, hmax⟩, hmin⟩, hclen⟩, hkids⟩ := hwf'
      have hlen' : ks.length = vs.length := by
        simpa using of_decide_eq_true hlen
      have haux := updGoAux cs ks vs lo
        (fun c hc lo' hi' r' hw => ih c hc lo' hi' r' hw) hkids hs hlen'
      by_cases hcond : lowerIdx k ks < ks.length ∧ ks.getD (lowerIdx k ks) "" = k
      · have hbody : updateNode k v (BTreeNode.mk false ks vs cs) =
            BTreeNode.mk false ks (vs.set (lowerIdx k ks) v) cs := by
          simp only [updateNode, if_pos hcond]
        rw [hbody]
        constructor
        · simp only [wfNode, Bool.and_eq_true]
          refine ⟨⟨⟨⟨⟨?_, hs⟩, hmax⟩, hmin⟩, hclen⟩, hkids⟩
          simp only [decide_eq_true_eq] at hlen ⊢
          simp [hlen']
        · simp only [itemsNode]
          exact haux.1 hcond
      · have hbody : updateNode k v (BTreeNode.mk false ks vs cs) =
            BTreeNode.mk false ks vs (updGo k v cs (lowerIdx k ks)) := by
          simp only [updateNode, if_neg hcond, Bool.false_eq_true, if_false]
          split
          · rename_i c hx
            simp [updGo, hx]
          · rename_i hx
            simp [updGo, hx]
        rw [hbody]
        obtain ⟨hw', hi'⟩ := haux.2 hcond
        constructor
        · simp only [wfNode, Bool.and_eq_true]
          refine ⟨⟨⟨⟨⟨hlen, hs⟩, hmax⟩, hmin⟩, ?_⟩, hw'⟩
          rw [updGo_length]
          exact hclen
        · simp only [itemsNode]
          exact hi'

/-! ## Decomposition lemmas for the split step -/

theorem sortedIn_split {m : String} :
    ∀ (A : List String) (B : List String) (lo hi : Option String),
      sortedIn lo hi (A ++ m :: B) = true →
      sortedIn lo (some m) A = true ∧ okLo lo m = true ∧ okHi hi m = true ∧
        sortedIn (some m) hi B = true := by
  intro A
  induction A with
  | nil =>
    intro B lo hi h
    simp only [List.nil_append, sortedIn_cons, Bool.and_eq_true] at h
    exact ⟨rfl, h.1.1, h.1.2, h.2⟩
  | cons a A' ih =>
    intro B lo hi h
    simp only [List.cons_append, sortedIn_cons, Bool.and_eq_true] at h
    obtain ⟨⟨h1, h2⟩, h3⟩ := h
    obtain ⟨hA', hm1, hm2, hB⟩ := ih B (some a) hi h3
    refine ⟨?_, okLo_trans h1 (by simpa [okLo] using hm1), hm2, hB⟩
    simp only [sortedIn_cons, Bool.and_eq_true]
    refine ⟨⟨h1, ?_⟩, hA'⟩
    simp only [okHi, decide_eq_true_eq]
    simpa [okLo] using hm1

theorem wfKids_split {t : Nat} {m : String} {hi : Option String} :
    ∀ (K1 : List String) (C1 : List BTreeNode) (K2 : List String)
      (C2 : List BTreeNode) (lo : Option String),
      C1.length = K1.length + 1 →
      wfKids t lo (K1 ++ m :: K2) hi (C1 ++ C2) = true →
      wfKids t lo K1 (some m) C1 = true ∧ wfKids t (some m) K2 hi C2 = true := by
  intro K1
  induction K1 with
  | nil =>
    intro C1 K2 C2 lo hC hk
    cases C1 with
    | nil => simp at hC
    | cons c0 C1' =>
      have : C1' = [] := by
        cases C1' with
        | nil => rfl
        | cons _ _ => simp at hC
      subst this
      simp only [List.nil_append, List.singleton_append] at hk
      cases C2 with
      | nil =>
        cases K2 with
        | nil => simp [wfKids] at hk
        | cons _ _ => simp [wfKids] at hk
      | cons c2 C2' =>
        simp only [wfKids, Bool.and_eq_true] at hk
        exact ⟨by simpa [wfKids] using hk.1, hk.2⟩
  | cons a K1' ih =>
    intro C1 K2 C2 lo hC hk
    cases C1 with
    | nil => simp at hC
    | cons c0 C1' =>
      have hC' : C1'.length = K1'.length + 1 := by simpa using hC
      have hC1ne : C1' ≠ [] := by
        cases C1' with
        | nil => simp at hC'
        | cons _ _ => simp
      simp only [List.cons_append] at hk
      rw [wfKids_cons a (K1' ++ m :: K2) c0 (C1' ++ C2)
        (by cases C1' with | nil => exact absurd rfl hC1ne | cons _ _ => simp),
        Bool.and_eq_true] at hk
      obtain ⟨hc0, hrest⟩ := hk
      obtain ⟨hl, hr⟩ := ih C1' K2 C2 (some a) hC' hrest
      refine ⟨?_, hr⟩
      rw [wfKids_cons a K1' c0 C1' hC1ne, Bool.and_eq_true]
      exact ⟨hc0, hl⟩

theorem itemsGo_split :
    ∀ (P1 : List (String × String)) (C1 : List BTreeNode)
      (mp : String × String) (P2 : List (String × String))
      (C2 : List BTreeNode),
      C1.length = P1.length + 1 →
      itemsGo (P1 ++ mp :: P2) (C1 ++ C2) =
        itemsGo P1 C1 ++ mp :: itemsGo P2 C2 := by
  intro P1
  induction P1 with
  | nil =>
    intro C1 mp P2 C2 hC
    cases C1 with
    | nil => simp at hC
    | cons c0 C1' =>
      have : C1' = [] := by
        cases C1' with
        | nil => rfl
        | cons _ _ => simp at hC
      subst this
      simp only [List.nil_append, List.singleton_append]
      rw [itemsGo_cons_cons]
      have h2 : itemsGo ([] : List (String × String)) [c0] = itemsNode c0 := by
        simp [itemsGo]
      rw [h2]
  | cons p P1' ih =>
    intro C1 mp P2 C2 hC
    cases C1 with
    | nil => simp at hC
    | cons c0 C1' =>
      have hC' : C1'.length = P1'.length + 1 := by simpa using hC
      simp only [List.cons_append]
      rw [itemsGo_cons_cons, itemsGo_cons_cons, ih C1' mp P2 C2 hC']
      simp

theorem getD_eq_getElem' {α} (l : List α) (n : Nat) (d : α) (h : n < l.length) :
    l.getD n d = l[n] := by
  simp [List.getD_eq_getElem?_getD, List.getElem?_eq_getElem h]

theorem splitNode_correct {t : Nat} (ht : 2 ≤ t) {lo hi : Option String}
    {c : BTreeNode} (hwf : wfNode t lo hi false c = true)
    (hfull : c.keys.length = 2 * t - 1) :
    wfNode t lo (some (splitNode t c).2.1.1) false (splitNode t c).1 = true ∧
    wfNode t (some (splitNode t c).2.1.1) hi false (splitNode t c).2.2 = true ∧
    itemsNode c =
      itemsNode (splitNode t c).1 ++ (splitNode t c).2.1 :: itemsNode (splitNode t c).2.2 ∧
    (splitNode t c).1.keys.length = t - 1 ∧
    (splitNode t c).2.2.keys.length = t - 1 ∧
    okLo lo (splitNode t c).2.1.1 = true ∧ okHi hi (splitNode t c).2.1.1 = true ∧
    (splitNode t c).1.leaf = c.leaf ∧ (splitNode t c).2.2.leaf = c.leaf := by
  obtain ⟨lf, ks, vs, cs⟩ := c
  simp only [BTreeNode.keys] at hfull
  have htm : t - 1 < ks.length := by omega
  have hm : ks.getD (t - 1) "" = ks.get ⟨t - 1, htm⟩ := getD_eq_getElem' ks (t - 1) "" htm
  have hdecomp : ks = ks.take (t - 1) ++ ks.get ⟨t - 1, htm⟩ :: ks.drop t := by
    have h1 : t - 1 + 1 = t := by omega
    conv_lhs => rw [← List.take_append_drop (t - 1) ks]
    rw [List.drop_eq_getElem_cons htm, h1]
    rfl
  have hlt1 : (ks.take (t - 1)).length = t - 1 := by
    rw [List.length_take]
    omega
  have hld : (ks.drop t).length = t - 1 := by
    rw [List.length_drop]
    omega
  have hzt : (ks.drop t).take (t - 1) = ks.drop t :=
    List.take_of_length_le (by omega)
  cases lf with
  | true =>
    simp only [wfNode, Bool.and_eq_true] at hwf
    obtain ⟨⟨⟨⟨hemp, hlen⟩, hs⟩, hmax⟩, hmin⟩ := hwf
    have hlenv : ks.length = vs.length := by simpa using of_decide_eq_true hlen
    have htmv : t - 1 < vs.length := by omega
    have hmv : vs.getD (t - 1) "" = vs.get ⟨t - 1, htmv⟩ := getD_eq_getElem' vs (t - 1) "" htmv
    have hvdecomp : vs = vs.take (t - 1) ++ vs.get ⟨t - 1, htmv⟩ :: vs.drop t := by
      have h1 : t - 1 + 1 = t := by omega
      conv_lhs => rw [← List.take_append_drop (t - 1) vs]
      rw [List.drop_eq_getElem_cons htmv, h1]
      rfl
    have hvzt : (vs.drop t).take (t - 1) = vs.drop t :=
      List.take_of_length_le (by simp only [List.length_drop]; omega)
    have hcs : cs = [] := by simpa using hemp
    subst hcs
    have hsp : sortedIn lo (some (ks.get ⟨t - 1, htm⟩)) (ks.take (t - 1)) = true ∧
        okLo lo (ks.get ⟨t - 1, htm⟩) = true ∧ okHi hi (ks.get ⟨t - 1, htm⟩) = true ∧
        sortedIn (some (ks.get ⟨t - 1, htm⟩)) hi (ks.drop t) = true := by
      have := hs
      rw [hdecomp] at this
      exact sortedIn_split _ _ _ _ this
    obtain ⟨hs1, hoklo, hokhi, hs2⟩ := hsp
    simp only [splitNode, BTreeNode.leaf, BTreeNode.keys, BTreeNode.values,
      BTreeNode.child, if_pos rfl, hm, hmv, hzt, hvzt]
    refine ⟨?_, ?_, ?_, ?_, ?_, hoklo, hokhi, by trivial, by trivial⟩
    · simp only [wfNode, Bool.and_eq_true]
      refine ⟨⟨⟨⟨by simp, by simp only [decide_eq_true_eq, List.length_take, List.length_drop]; omega⟩, hs1⟩, ?_⟩, ?_⟩
      · simp only [decide_eq_true_eq, hlt1]
        omega
      · simp only [Bool.or_eq_true, decide_eq_true_eq, hlt1]
        omega
    · simp only [wfNode, Bool.and_eq_true]
      refine ⟨⟨⟨⟨by simp, by simp only [decide_eq_true_eq, List.length_take, List.length_drop]; omega⟩, hs2⟩, ?_⟩, ?_⟩
      · simp only [decide_eq_true_eq, hld]
        omega
      · simp only [Bool.or_eq_true, decide_eq_true_eq, hld]
        omega
    · simp only [itemsNode]
      conv_lhs => rw [hdecomp, hvdecomp]
      rw [show (ks.take (t - 1) ++ ks.get ⟨t - 1, htm⟩ :: ks.drop t).zip
            (vs.take (t - 1) ++ vs.get ⟨t - 1, htmv⟩ :: vs.drop t) =
          (ks.take (t - 1)).zip (vs.take (t - 1)) ++
            (ks.get ⟨t - 1, htm⟩, vs.get ⟨t - 1, htmv⟩) :: (ks.drop t).zip (vs.drop t) from ?_]
      rw [List.zip_append (by simp only [List.length_take]; omega)]
      rw [List.zip_cons_cons]
    · simpa using hlt1
    · simpa [hzt] using hld
  | false =>
    simp only [wfNode, Bool.and_eq_true] at hwf
    obtain ⟨⟨⟨⟨⟨hlen, hs⟩, hmax⟩, hmin⟩, hclen⟩, hkids⟩ := hwf
    have hlenv : ks.length = vs.length := by simpa using of_decide_eq_true hlen
    have hclen' : cs.length = ks.length + 1 := by simpa using of_decide_eq_true hclen
    have htmv : t - 1 < vs.length := by omega
    have hmv : vs.getD (t - 1) "" = vs.get ⟨t - 1, htmv⟩ := getD_eq_getElem' vs (t - 1) "" htmv
    have hvdecomp : vs = vs.take (t - 1) ++ vs.get ⟨t - 1, htmv⟩ :: vs.drop t := by
      have h1 : t - 1 + 1 = t := by omega
      conv_lhs => rw [← List.take_append_drop (t - 1) vs]
      rw [List.drop_eq_getElem_cons htmv, h1]
      rfl
    have hvzt : (vs.drop t).take (t - 1) = vs.drop t :=
      List.take_of_length_le (by simp only [List.length_drop]; omega)
    have hcst : (cs.take t).length = t := by
      rw [List.length_take]
      omega
    have hcsd : (cs.drop t).length = t := by
      rw [List.length_drop]
      omega
    have hczt : (cs.drop t).take t = cs.drop t :=
      List.take_of_length_le (by omega)
    have hcdecomp : cs = cs.take t ++ cs.drop t := (List.take_append_drop t cs).symm
    have hsp : sortedIn lo (some (ks.get ⟨t - 1, htm⟩)) (ks.take (t - 1)) = true ∧
        okLo lo (ks.get ⟨t - 1, htm⟩) = true ∧ okHi hi (ks.get ⟨t - 1, htm⟩) = true ∧
        sortedIn (some (ks.get ⟨t - 1, htm⟩)) hi (ks.drop t) = true := by
      have := hs
      rw [hdecomp] at this
      exact sortedIn_split _ _ _ _ this
    obtain ⟨hs1, hoklo, hokhi, hs2⟩ := hsp
    have hksplit : wfKids t lo (ks.take (t - 1)) (some (ks.get ⟨t - 1, htm⟩)) (cs.take t) = true ∧
        wfKids t (some (ks.get ⟨t - 1, htm⟩)) (ks.drop t) hi (cs.drop t) = true := by
      apply wfKids_split (ks.take (t - 1)) (cs.take t) (ks.drop t) (cs.drop t) lo
        (by rw [hcst, hlt1]; omega)
      rw [← hdecomp, ← hcdecomp]
      exact hkids
    simp only [splitNode, BTreeNode.leaf, BTreeNode.keys, BTreeNode.values,
      BTreeNode.child, Bool.false_eq_true, if_false, hm, hmv, hzt, hvzt, hczt]
    refine ⟨?_, ?_, ?_, ?_, ?_, hoklo, hokhi, by trivial, by trivial⟩
    · simp only [wfNode, Bool.and_eq_true]
      refine ⟨⟨⟨⟨⟨by simp only [decide_eq_true_eq, List.length_take, List.length_drop]; omega, hs1⟩, ?_⟩, ?_⟩, ?_⟩, hksplit.1⟩
      · simp only [decide_eq_true_eq, hlt1]
        omega
      · simp only [Bool.or_eq_true, decide_eq_true_eq, hlt1]
        omega
      · simp only [decide_eq_true_eq, hlt1, hcst]
        omega
    · simp only [wfNode, Bool.and_eq_true]
      refine ⟨⟨⟨⟨⟨by simp only [decide_eq_true_eq, List.length_take, List.length_drop]; omega, hs2⟩, ?_⟩, ?_⟩, ?_⟩, hksplit.2⟩
      · simp only [decide_eq_true_eq, hld]
        omega
      · simp only [Bool.or_eq_true, decide_eq_true_eq, hld]
        omega
      · simp only [decide_eq_true_eq, hld, hcsd]
        omega
    · simp only [itemsNode]
      conv_lhs => rw [hdecomp, hvdecomp, hcdecomp]
      rw [show (ks.take (t - 1) ++ ks.get ⟨t - 1, htm⟩ :: ks.drop t).zip
            (vs.take (t - 1) ++ vs.get ⟨t - 1, htmv⟩ :: vs.drop t) =
          (ks.take (t - 1)).zip (vs.take (t - 1)) ++
            (ks.get ⟨t - 1, htm⟩, vs.get ⟨t - 1, htmv⟩) :: (ks.drop t).zip (vs.drop t) from ?_]
      · rw [itemsGo_split]
        simp only [List.length_zip, List.length_take, List.length_drop]
        omega
      · rw [List.zip_append (by simp only [List.length_take]; omega)]
        rw [List.zip_cons_cons]
    · simpa using hlt1
    · simpa [hzt] using hld

/-! ## Correctness of `insert_non_full` -/

theorem lookupA_none_mem_ne {k : String} {l : List (String × String)}
    (h : lookupA k l = none) : ∀ p ∈ l, p.1 ≠ k := by
  induction l with
  | nil => intro p hp; cases hp
  | cons q rest ih =>
    intro p hp
    simp only [lookupA] at h
    have hq1 : ¬ (q.1 = k) := by
      intro hc
      simp [hc] at h
    rw [if_neg hq1] at h
    rcases List.mem_cons.1 hp with rfl | hp'
    · exact hq1
    · exact ih h p hp'

theorem lookupA_append_none {k : String} {A B : List (String × String)}
    (h : lookupA k (A ++ B) = none) :
    lookupA k A = none ∧ lookupA k B = none := by
  rw [lookupA_append] at h
  cases hA : lookupA k A with
  | none => simpa [hA, Option.orElse] using h
  | some w => simp [hA, Option.orElse] at h

theorem insA_append_right {k v : String} {A : List (String × String)}
    (B : List (String × String)) (h : ∀ p ∈ A, ¬ (k < p.1)) :
    insA k v (A ++ B) = A ++ insA k v B := by
  induction A with
  | nil => rfl
  | cons p rest ih =>
    simp only [List.cons_append, insA, List.append_eq,
      if_neg (h p (List.mem_cons_self p rest))]
    rw [ih (fun q hq => h q (List.mem_cons_of_mem p hq))]

theorem insA_append_left {k v a b : String} {A B : List (String × String)}
    (h : k < a) :
    insA k v (A ++ (a, b) :: B) = insA k v A ++ (a, b) :: B := by
  induction A with
  | nil => simp [insA, h]
  | cons p rest ih =>
    by_cases hp : k < p.1
    · simp [insA, hp]
    · simp only [List.cons_append, insA, List.append_eq, if_neg hp]
      rw [ih]

theorem upperIdx_nil (k : String) : upperIdx k [] = 0 := rfl

theorem upperIdx_cons_le {k a : String} (ks : List String) (h : a ≤ k) :
    upperIdx k (a :: ks) = upperIdx k ks + 1 := by
  have hna : decide (k < a) = false := decide_eq_false (not_lt.2 h)
  have heq : ((a :: ks).reverse.takeWhile (fun x => decide (k < x))) =
      (ks.reverse.takeWhile (fun x => decide (k < x))) := by
    rw [List.reverse_cons]
    exact takeWhile_append_singleton_of_not _ _ _ hna
  have hlen : (ks.reverse.takeWhile (fun x => decide (k < x))).length ≤ ks.length := by
    calc (ks.reverse.takeWhile (fun x => decide (k < x))).length
        ≤ ks.reverse.length := length_takeWhile_le' _ _
      _ = ks.length := List.length_reverse ks
  unfold upperIdx
  rw [heq]
  simp only [List.length_cons]
  omega

theorem insertNonFull_cons {t : Nat} {k v a b : String} (hak : a ≤ k)
    (ks vs : List String) (c : BTreeNode) (cs : List BTreeNode) :
    insertNonFull t k v (.mk false (a :: ks) (b :: vs) (c :: cs)) =
      .mk false (a :: (insertNonFull t k v (.mk false ks vs cs)).keys)
        (b :: (insertNonFull t k v (.mk false ks vs cs)).values)
        (c :: (insertNonFull t k v (.mk false ks vs cs)).child) := by
  have hidx := upperIdx_cons_le ks hak
  simp only [insertNonFull]
  split
  · rename_i hlt'
    have hlt : upperIdx k ks < cs.length := by
      rw [hidx] at hlt'
      simpa using hlt'
    simp only [dif_pos hlt, hidx, List.getElem_cons_succ,
      List.insertIdx_succ_cons, List.set_cons_succ, List.getD_cons_succ]
    by_cases hfull : (cs[upperIdx k ks]).keys.length = 2 * t - 1
    · rw [if_pos hfull, if_pos hfull]
      by_cases hdir :
          (ks.insertIdx (upperIdx k ks) (splitNode t cs[upperIdx k ks]).2.1.1).getD
            (upperIdx k ks) "" < k
      · rw [if_pos hdir, if_pos hdir]
        simp [BTreeNode.keys, BTreeNode.values, BTreeNode.child]
      · rw [if_neg hdir, if_neg hdir]
        simp [BTreeNode.keys, BTreeNode.values, BTreeNode.child]
    · rw [if_neg hfull, if_neg hfull]
      simp [BTreeNode.keys, BTreeNode.values, BTreeNode.child]
  · rename_i hge
    have hge' : ¬ upperIdx k ks < cs.length := by
      rw [hidx] at hge
      simpa using hge
    simp only [dif_neg hge']
    simp [BTreeNode.keys, BTreeNode.values, BTreeNode.child]

theorem sortedIn_insertIdx {k : String} :
    ∀ (keys : List String) (lo hi : Option String),
      sortedIn lo hi keys = true → okLo lo k = true → okHi hi k = true →
      (∀ a ∈ keys, a ≠ k) →
      sortedIn lo hi (keys.insertIdx (leIdx k keys) k) = true := by
  intro keys
  induction keys with
  | nil =>
    intro lo hi _ hlo hhi _
    simp only [leIdx, List.takeWhile_nil, List.length_nil, List.insertIdx_zero]
    simp [sortedIn_cons, hlo, hhi, sortedIn]
  | cons a ks ih =>
    intro lo hi hs hlo hhi hfr
    simp only [sortedIn_cons, Bool.and_eq_true] at hs
    obtain ⟨⟨hla, hha⟩, hs'⟩ := hs
    rw [leIdx_cons]
    by_cases hak : a ≤ k
    · have hak' : a < k := lt_of_le_of_ne hak (hfr a (List.mem_cons_self a ks))
      rw [if_pos hak, List.insertIdx_succ_cons]
      simp only [sortedIn_cons, Bool.and_eq_true]
      refine ⟨⟨hla, hha⟩, ?_⟩
      exact ih (some a) hi hs' (by simp [okLo, hak']) hhi
        (fun x hx => hfr x (List.mem_cons_of_mem a hx))
    · have hka : k < a := not_le.1 hak
      rw [if_neg hak, List.insertIdx_zero]
      simp only [sortedIn_cons, Bool.and_eq_true]
      refine ⟨⟨hlo, hhi⟩, ⟨⟨by simp [okLo, hka], hha⟩, hs'⟩⟩

theorem zip_insertIdx_insA {k v : String} :
    ∀ (keys values : List String),
      keys.length = values.length →
      (keys.insertIdx (leIdx k keys) k).zip (values.insertIdx (leIdx k keys) v) =
        insA k v (keys.zip values) := by
  intro keys
  induction keys with
  | nil =>
    intro values hlen
    have : values = [] := by
      cases values with
      | nil => rfl
      | cons b vs => simp at hlen
    subst this
    simp [leIdx, insA]
  | cons a ks ih =>
    intro values hlen
    cases values with
    | nil => simp at hlen
    | cons b vs =>
      rw [leIdx_cons]
      by_cases hak : a ≤ k
      · rw [if_pos hak]
        simp only [List.insertIdx_succ_cons, List.zip_cons_cons]
        rw [ih vs (by simpa using hlen)]
        have : ¬ (k < a) := not_lt.2 hak
        simp [insA, this]
      · have hka : k < a := not_le.1 hak
        rw [if_neg hak]
        simp only [List.insertIdx_zero, List.zip_cons_cons]
        simp [insA, hka]

theorem keys_ne_of_zip_lookup_none {k : String} :
    ∀ (keys values : List String),
      keys.length = values.length →
      lookupA k (keys.zip values) = none →
      ∀ a ∈ keys, a ≠ k := by
  intro keys
  induction keys with
  | nil => intro values _ _ a ha; cases ha
  | cons a ks ih =>
    intro values hlen hnone x hx
    cases values with
    | nil => simp at hlen
    | cons b vs =>
      simp only [List.zip_cons_cons, lookupA] at hnone
      have ha : ¬ (a = k) := by
        intro hc
        simp [hc] at hnone
      rw [if_neg ha] at hnone
      rcases List.mem_cons.1 hx with rfl | hx'
      · exact ha
      · exact ih vs (by simpa using hlen) hnone x hx'

theorem insGoAux {t : Nat} (ht : 2 ≤ t) {k v : String} {hi : Option String} :
    ∀ (keys : List String) (values : List String) (child : List BTreeNode)
      (lo : Option String),
      (∀ y : BTreeNode, (∃ c0 ∈ child, sizeOf y ≤ sizeOf c0) →
        ∀ lo' hi' : Option String,
        wfNode t lo' hi' false y = true → y.keys.length < 2 * t - 1 →
        lookupA k (itemsNode y) = none → okLo lo' k = true → okHi hi' k = true →
        wfNode t lo' hi' false (insertNonFull t k v y) = true ∧
        itemsNode (insertNonFull t k v y) = insA k v (itemsNode y)) →
      wfKids t lo keys hi child = true →
      sortedIn lo hi keys = true →
      keys.length = values.length →
      child.length = keys.length + 1 →
      lookupA k (itemsGo (keys.zip values) child) = none →
      okLo lo k = true → okHi hi k = true →
      ∃ K V C,
        insertNonFull t k v (.mk false keys values child) = .mk false K V C ∧
        sortedIn lo hi K = true ∧ wfKids t lo K hi C = true ∧
        K.length = V.length ∧ C.length = K.length + 1 ∧
        keys.length ≤ K.length ∧ K.length ≤ keys.length + 1 ∧
        itemsGo (K.zip V) C = insA k v (itemsGo (keys.zip values) child) := by
  intro keys
  induction keys with
  | nil =>
    intro values child lo hnode hkids hs hlen hclen hfresh hklo hkhi
    have hv : values = [] := by
      cases values with
      | nil => rfl
      | cons b vs => simp at hlen
    subst hv
    obtain ⟨c, hc⟩ : ∃ c, child = [c] := by
      cases child with
      | nil => simp at hclen
      | cons c cs =>
        cases cs with
        | nil => exact ⟨c, rfl⟩
        | cons _ _ => simp at hclen
    subst hc
    have hcwf : wfNode t lo hi false c = true := by simpa [wfKids] using hkids
    have hup : upperIdx k ([] : List String) = 0 := rfl
    have hfr : lookupA k (itemsNode c) = none := by
      simpa [itemsGo] using hfresh
    by_cases hfull : c.keys.length = 2 * t - 1
    · -- split the sole child, then descend into a piece
      obtain ⟨hy, hz, hitems, hylen, hzlen, hmlo, hmhi, _, _⟩ :=
        splitNode_correct ht hcwf hfull
      have hparts := lookupA_append_none (by rw [← hitems]; exact hfr)
      have hmne : (splitNode t c).2.1.1 ≠ k := by
        have := lookupA_none_mem_ne hfr (splitNode t c).2.1
        apply this
        rw [hitems]
        simp
      have hzfr : lookupA k (itemsNode (splitNode t c).2.2) = none := by
        have h2 := hparts.2
        simp only [lookupA] at h2
        rw [if_neg (by simpa using hmne)] at h2
        exact h2
      have hyfr : lookupA k (itemsNode (splitNode t c).1) = none := hparts.1
      have hbody : insertNonFull t k v (BTreeNode.mk false [] [] [c]) =
          (if (([] : List String).insertIdx 0 (splitNode t c).2.1.1).getD 0 "" < k then
            BTreeNode.mk false ([(splitNode t c).2.1.1]) ([(splitNode t c).2.1.2])
              [(splitNode t c).1, insertNonFull t k v (splitNode t c).2.2]
          else
            BTreeNode.mk false ([(splitNode t c).2.1.1]) ([(splitNode t c).2.1.2])
              [insertNonFull t k v (splitNode t c).1, (splitNode t c).2.2]) := by
        simp only [insertNonFull, hup]
        rw [dif_pos (by simp)]
        simp only [List.getElem_cons_zero, BTreeNode.keys]
        rw [if_pos (by
          obtain ⟨lf, cks, cvs, ccs⟩ := c
          simpa [BTreeNode.keys] using hfull)]
        simp only [List.insertIdx_zero, List.set_cons_zero, List.getD_cons_zero]
        split <;> rfl
      rw [List.insertIdx_zero, List.getD_cons_zero] at hbody
      by_cases hdir : (splitNode t c).2.1.1 < k
      · rw [if_pos hdir] at hbody
        have hrec := hnode (splitNode t c).2.2
          ⟨c, by simp, sizeOf_splitNode_snd t c⟩ (some (splitNode t c).2.1.1) hi
          hz (by rw [hzlen]; omega) hzfr (by simp [okLo, hdir]) hkhi
        refine ⟨[(splitNode t c).2.1.1], [(splitNode t c).2.1.2],
          [(splitNode t c).1, insertNonFull t k v (splitNode t c).2.2],
          hbody, ?_, ?_, by simp, by simp, by simp, by simp, ?_⟩
        · simp [sortedIn_cons, hmlo, hmhi, sortedIn]
        · rw [wfKids_cons _ _ _ _ (by simp), Bool.and_eq_true]
          refine ⟨hy, ?_⟩
          simpa [wfKids] using hrec.1
        · rw [List.zip_cons_cons]
          rw [show ([] : List String).zip ([] : List String) = [] from rfl]
          rw [itemsGo_cons_cons]
          have h1 : itemsGo ([] : List (String × String))
              [insertNonFull t k v (splitNode t c).2.2] =
              itemsNode (insertNonFull t k v (splitNode t c).2.2) := by
            simp [itemsGo]
          rw [h1, hrec.2]
          have h2 : itemsGo ([] : List (String × String)) [c] = itemsNode c := by
            simp [itemsGo]
          rw [h2, hitems]
          have hAll : ∀ p ∈ itemsNode (splitNode t c).1, ¬ (k < p.1) := by
            intro p hp
            have h3 := (itemsNode_bounds _ t lo (some (splitNode t c).2.1.1) false hy p hp).2
            simp only [okHi, decide_eq_true_eq] at h3
            exact not_lt.2 (le_of_lt (lt_trans h3 hdir))
          rw [insA_append_right _ hAll]
          have hmstep : insA k v ((splitNode t c).2.1 :: itemsNode (splitNode t c).2.2) =
              (splitNode t c).2.1 :: insA k v (itemsNode (splitNode t c).2.2) := by
            simp only [insA]
            rw [if_neg (not_lt.2 (le_of_lt hdir))]
          rw [hmstep]
      · have hkm : k < (splitNode t c).2.1.1 :=
          lt_of_le_of_ne (not_lt.1 hdir) (fun h => hmne h.symm)
        rw [if_neg hdir] at hbody
        have hrec := hnode (splitNode t c).1
          ⟨c, by simp, sizeOf_splitNode_fst t c⟩ lo (some (splitNode t c).2.1.1)
          hy (by rw [hylen]; omega) hyfr hklo (by simp [okHi, hkm])
        refine ⟨[(splitNode t c).2.1.1], [(splitNode t c).2.1.2],
          [insertNonFull t k v (splitNode t c).1, (splitNode t c).2.2],
          hbody, ?_, ?_, by simp, by simp, by simp, by simp, ?_⟩
        · simp [sortedIn_cons, hmlo, hmhi, sortedIn]
        · rw [wfKids_cons _ _ _ _ (by simp), Bool.and_eq_true]
          refine ⟨hrec.1, ?_⟩
          simpa [wfKids] using hz
        · rw [List.zip_cons_cons]
          rw [show ([] : List String).zip ([] : List String) = [] from rfl]
          rw [itemsGo_cons_cons]
          have h1 : itemsGo ([] : List (String × String)) [(splitNode t c).2.2] =
              itemsNode (splitNode t c).2.2 := by
            simp [itemsGo]
          rw [h1, hrec.2]
          have h2 : itemsGo ([] : List (String × String)) [c] = itemsNode c := by
            simp [itemsGo]
          rw [h2, hitems]
          rw [show (splitNode t c).2.1 =
            ((splitNode t c).2.1.1, (splitNode t c).2.1.2) from rfl]
          rw [insA_append_left hkm]
    · -- the sole child has room: plain descent
      have hbody : insertNonFull t k v (BTreeNode.mk false [] [] [c]) =
          BTreeNode.mk false [] [] [insertNonFull t k v c] := by
        simp only [insertNonFull, hup]
        rw [dif_pos (by simp)]
        simp only [List.getElem_cons_zero]
        rw [if_neg hfull]
        simp [List.set_cons_zero]
      have hclt : c.keys.length < 2 * t - 1 := by
        have : c.keys.length ≤ 2 * t - 1 := by
          obtain ⟨lf, cks, cvs, ccs⟩ := c
          cases lf with
          | true =>
            simp only [wfNode, Bool.and_eq_true] at hcwf
            simpa [BTreeNode.keys] using of_decide_eq_true hcwf.1.2
          | false =>
            simp only [wfNode, Bool.and_eq_true] at hcwf
            simpa [BTreeNode.keys] using of_decide_eq_true hcwf.1.1.1.2
        omega
      have hrec := hnode c ⟨c, by simp, le_refl _⟩ lo hi hcwf hclt hfr hklo hkhi
      refine ⟨[], [], [insertNonFull t k v c], hbody, rfl, ?_, rfl, by simp,
        by simp, by simp, ?_⟩
      · simpa [wfKids] using hrec.1
      · rw [show ([] : List String).zip ([] : List String) = [] from rfl]
        have h1 : itemsGo ([] : List (String × String)) [insertNonFull t k v c] =
            itemsNode (insertNonFull t k v c) := by
          simp [itemsGo]
        have h2 : itemsGo ([] : List (String × String)) [c] = itemsNode c := by
          simp [itemsGo]
        rw [h1, h2, hrec.2]
  | cons a ks ih =>
    intro values child lo hnode hkids hs hlen hclen hfresh hklo hkhi
    cases values with
    | nil => simp at hlen
    | cons b vs =>
      obtain ⟨c, cs, hc⟩ : ∃ c cs, child = c :: cs := by
        cases child with
        | nil => simp at hclen
        | cons c cs => exact ⟨c, cs, rfl⟩
      subst hc
      have hcsne : cs ≠ [] := by
        intro hcon
        subst hcon
        simp at hclen
      have hkidsc := hkids
      rw [wfKids_cons a ks c cs hcsne, Bool.and_eq_true] at hkidsc
      obtain ⟨hcwf, hkids'⟩ := hkidsc
      simp only [sortedIn_cons, Bool.and_eq_true] at hs
      obtain ⟨⟨hla, hha⟩, hs'⟩ := hs
      have hlen' : ks.length = vs.length := by simpa using hlen
      have hclen' : cs.length = ks.length + 1 := by simpa using hclen
      have hitems : itemsGo ((a, b) :: ks.zip vs) (c :: cs) =
          itemsNode c ++ (a, b) :: itemsGo (ks.zip vs) cs := itemsGo_cons_cons _ _ _ _
      have hfresh' := hfresh
      rw [List.zip_cons_cons, hitems] at hfresh'
      obtain ⟨hcfr, hrest⟩ := lookupA_append_none hfresh'
      have hane : a ≠ k := by
        intro hcon
        simp only [lookupA] at hrest
        rw [if_pos (by simpa using hcon)] at hrest
        cases hrest
      have htail : lookupA k (itemsGo (ks.zip vs) cs) = none := by
        simp only [lookupA] at hrest
        rw [if_neg (by simpa using hane)] at hrest
        exact hrest
      by_cases hak : a < k
      · -- peel: the insertion happens to the right of `a`
        have hcons := @insertNonFull_cons t k v a b (le_of_lt hak) ks vs c cs
        obtain ⟨K, V, C, heq, hKs, hKw, hKV, hKC, hK1, hK2, hKi⟩ :=
          ih vs cs (some a)
            (fun y hy lo' hi' => hnode y
              (by
                obtain ⟨c0, hc0, hsz⟩ := hy
                exact ⟨c0, List.mem_cons_of_mem c hc0, hsz⟩) lo' hi')
            hkids' hs' hlen' hclen' htail (by simp [okLo, hak]) hkhi
      -- assemble the cons result
        refine ⟨a :: K, b :: V, c :: C, ?_, ?_, ?_, by simpa using hKV,
          by simpa using hKC, by simpa using hK1, by simpa using hK2, ?_⟩
        · rw [hcons, heq]
          simp [BTreeNode.keys, BTreeNode.values, BTreeNode.child]
        · simp only [sortedIn_cons, Bool.and_eq_true]
          exact ⟨⟨hla, hha⟩, hKs⟩
        · have hCne : C ≠ [] := by
            intro hcon
            subst hcon
            simp at hKC
          rw [wfKids_cons a K c C hCne, Bool.and_eq_true]
          exact ⟨hcwf, hKw⟩
        · rw [List.zip_cons_cons, itemsGo_cons_cons, hKi, List.zip_cons_cons,
            hitems]
          have hAll : ∀ p ∈ itemsNode c ++ [(a, b)], ¬ (k < p.1) := by
            intro p hp
            rcases List.mem_append.1 hp with hp | hp
            · have := (itemsNode_bounds c t lo (some a) false hcwf p hp).2
              simp only [okHi, decide_eq_true_eq] at this
              exact not_lt.2 (le_of_lt (lt_trans this hak))
            · rw [List.mem_singleton] at hp
              subst hp
              exact not_lt.2 (le_of_lt hak)
          have := @insA_append_right k v _
            (itemsGo (ks.zip vs) cs) hAll
          rw [List.append_assoc] at this
          simp only [List.cons_append, List.nil_append] at this
          rw [this]
          simp
      · -- the head key already exceeds `k`: act on the first child
        have hka : k < a := lt_of_le_of_ne (not_lt.1 hak) (fun h => hane h.symm)
        have hup : upperIdx k (a :: ks) = 0 := by
          rw [@upperIdx_eq_leIdx k (a :: ks) lo hi
            (by simp only [sortedIn_cons, Bool.and_eq_true]; exact ⟨⟨hla, hha⟩, hs'⟩),
            leIdx_cons, if_neg (not_le.2 hka)]
        by_cases hfull : c.keys.length = 2 * t - 1
        · obtain ⟨hy, hz, hcit, hylen, hzlen, hmlo, hmhi, _, _⟩ :=
            splitNode_correct ht hcwf hfull
          have hparts := lookupA_append_none (by rw [← hcit]; exact hcfr)
          have hmne : (splitNode t c).2.1.1 ≠ k := by
            have := lookupA_none_mem_ne hcfr (splitNode t c).2.1
            apply this
            rw [hcit]
            simp
          have hzfr : lookupA k (itemsNode (splitNode t c).2.2) = none := by
            have h2 := hparts.2
            simp only [lookupA] at h2
            rw [if_neg (by simpa using hmne)] at h2
            exact h2
          have hyfr : lookupA k (itemsNode (splitNode t c).1) = none := hparts.1
          have hbody : insertNonFull t k v (BTreeNode.mk false (a :: ks) (b :: vs) (c :: cs)) =
              (if (splitNode t c).2.1.1 < k then
                BTreeNode.mk false ((splitNode t c).2.1.1 :: a :: ks)
                  ((splitNode t c).2.1.2 :: b :: vs)
                  ((splitNode t c).1 :: insertNonFull t k v (splitNode t c).2.2 :: cs)
              else
                BTreeNode.mk false ((splitNode t c).2.1.1 :: a :: ks)
                  ((splitNode t c).2.1.2 :: b :: vs)
                  (insertNonFull t k v (splitNode t c).1 :: (splitNode t c).2.2 :: cs)) := by
            simp only [insertNonFull, hup]
            rw [dif_pos (by simp)]
            simp only [List.getElem_cons_zero]
            rw [if_pos hfull]
            simp only [List.insertIdx_zero, List.set_cons_zero, List.getD_cons_zero]
            split
            · rfl
            · rfl
          have hsorted2 : sortedIn lo hi ((splitNode t c).2.1.1 :: a :: ks) = true := by
            simp only [sortedIn_cons, Bool.and_eq_true]
            have hma : (splitNode t c).2.1.1 < a := by
              simpa [okHi] using hmhi
            refine ⟨⟨hmlo, okHi_trans hha hma⟩, ⟨⟨by simpa [okLo] using hma, hha⟩, hs'⟩⟩
          by_cases hdir : (splitNode t c).2.1.1 < k
          · rw [if_pos hdir] at hbody
            have hrec := hnode (splitNode t c).2.2
              ⟨c, by simp, sizeOf_splitNode_snd t c⟩
              (some (splitNode t c).2.1.1) (some a)
              hz (by rw [hzlen]; omega) hzfr (by simp [okLo, hdir])
              (by simp [okHi, hka])
            refine ⟨(splitNode t c).2.1.1 :: a :: ks,
              (splitNode t c).2.1.2 :: b :: vs,
              (splitNode t c).1 :: insertNonFull t k v (splitNode t c).2.2 :: cs,
              hbody, hsorted2, ?_, by simpa using hlen, by simpa using hclen',
              by simp, by simp, ?_⟩
            · rw [wfKids_cons _ _ _ _ (by simp), Bool.and_eq_true]
              refine ⟨hy, ?_⟩
              rw [wfKids_cons _ _ _ _ hcsne, Bool.and_eq_true]
              exact ⟨hrec.1, hkids'⟩
            · simp only [List.zip_cons_cons]
              rw [itemsGo_cons_cons, itemsGo_cons_cons, hrec.2, hitems, hcit]
              have hstep : insA k v ((itemsNode (splitNode t c).1 ++
                  (splitNode t c).2.1 :: itemsNode (splitNode t c).2.2) ++
                  (a, b) :: itemsGo (ks.zip vs) cs) =
                  (itemsNode (splitNode t c).1 ++ [(splitNode t c).2.1]) ++
                  insA k v (itemsNode (splitNode t c).2.2 ++
                    (a, b) :: itemsGo (ks.zip vs) cs) := by
                rw [show (itemsNode (splitNode t c).1 ++
                    (splitNode t c).2.1 :: itemsNode (splitNode t c).2.2) ++
                    (a, b) :: itemsGo (ks.zip vs) cs =
                  (itemsNode (splitNode t c).1 ++ [(splitNode t c).2.1]) ++
                    (itemsNode (splitNode t c).2.2 ++ (a, b) :: itemsGo (ks.zip vs) cs) by
                  simp]
                apply insA_append_right
                intro p hp
                rcases List.mem_append.1 hp with hp | hp
                · have := (itemsNode_bounds _ t lo (some (splitNode t c).2.1.1) false hy p hp).2
                  simp only [okHi, decide_eq_true_eq] at this
                  exact not_lt.2 (le_of_lt (lt_trans this hdir))
                · rw [List.mem_singleton] at hp
                  subst hp
                  exact not_lt.2 (le_of_lt hdir)
              rw [hstep, insA_append_left hka]
              simp
          · have hkm : k < (splitNode t c).2.1.1 :=
              lt_of_le_of_ne (not_lt.1 hdir) (fun h => hmne h.symm)
            rw [if_neg hdir] at hbody
            have hrec := hnode (splitNode t c).1
              ⟨c, by simp, sizeOf_splitNode_fst t c⟩ lo (some (splitNode t c).2.1.1)
              hy (by rw [hylen]; omega) hyfr hklo (by simp [okHi, hkm])
            refine ⟨(splitNode t c).2.1.1 :: a :: ks,
              (splitNode t c).2.1.2 :: b :: vs,
              insertNonFull t k v (splitNode t c).1 :: (splitNode t c).2.2 :: cs,
              hbody, hsorted2, ?_, by simpa using hlen, by simpa using hclen',
              by simp, by simp, ?_⟩
            · rw [wfKids_cons _ _ _ _ (by simp), Bool.and_eq_true]
              refine ⟨hrec.1, ?_⟩
              rw [wfKids_cons _ _ _ _ hcsne, Bool.and_eq_true]
              exact ⟨hz, hkids'⟩
            · simp only [List.zip_cons_cons]
              rw [itemsGo_cons_cons, itemsGo_cons_cons, hrec.2, hitems, hcit]
              have hstep : insA k v ((itemsNode (splitNode t c).1 ++
                  (splitNode t c).2.1 :: itemsNode (splitNode t c).2.2) ++
                  (a, b) :: itemsGo (ks.zip vs) cs) =
                  insA k v (itemsNode (splitNode t c).1) ++
                  (splitNode t c).2.1 :: itemsNode (splitNode t c).2.2 ++
                  (a, b) :: itemsGo (ks.zip vs) cs := by
                rw [List.append_assoc, List.cons_append]
                rw [show (splitNode t c).2.1 =
                  ((splitNode t c).2.1.1, (splitNode t c).2.1.2) from rfl]
                rw [insA_append_left hkm]
                simp
              rw [hstep]
              simp
        · -- head child has room
          have hbody : insertNonFull t k v (BTreeNode.mk false (a :: ks) (b :: vs) (c :: cs)) =
              BTreeNode.mk false (a :: ks) (b :: vs) (insertNonFull t k v c :: cs) := by
            simp only [insertNonFull, hup]
            rw [dif_pos (by simp)]
            simp only [List.getElem_cons_zero]
            rw [if_neg hfull]
            simp [List.set_cons_zero]
          have hclt : c.keys.length < 2 * t - 1 := by
            have hle : c.keys.length ≤ 2 * t - 1 := by
              obtain ⟨lf, cks, cvs, ccs⟩ := c
              cases lf with
              | true =>
                simp only [wfNode, Bool.and_eq_true] at hcwf
                simpa [BTreeNode.keys] using of_decide_eq_true hcwf.1.2
              | false =>
                simp only [wfNode, Bool.and_eq_true] at hcwf
                simpa [BTreeNode.keys] using of_decide_eq_true hcwf.1.1.1.2
            omega
          have hrec := hnode c ⟨c, by simp, le_refl _⟩ lo (some a) hcwf hclt hcfr
            hklo (by simp [okHi, hka])
          refine ⟨a :: ks, b :: vs, insertNonFull t k v c :: cs, hbody,
            (by simp only [sortedIn_cons, Bool.and_eq_true]; exact ⟨⟨hla, hha⟩, hs'⟩),
            ?_, hlen, hclen, le_refl _, by simp, ?_⟩
          · rw [wfKids_cons a ks _ cs hcsne, Bool.and_eq_true]
            exact ⟨hrec.1, hkids'⟩
          · simp only [List.zip_cons_cons]
            rw [itemsGo_cons_cons, hrec.2, hitems, insA_append_left hka]

theorem leIdx_le (k : String) (keys : List String) : leIdx k keys ≤ keys.length :=
  le_trans (length_takeWhile_le' _ _) (le_refl _)

/-- `insert_non_full` on a well-formed non-full node inserts a fresh key:
well-formedness is preserved and the enumeration gains exactly the new
pair, in sorted position. -/
theorem insertNonFull_correct {t : Nat} (ht : 2 ≤ t) {k v : String} :
    ∀ x : BTreeNode, ∀ lo hi : Option String, ∀ r : Bool,
      wfNode t lo hi r x = true → x.keys.length < 2 * t - 1 →
      lookupA k (itemsNode x) = none →
      okLo lo k = true → okHi hi k = true →
      wfNode t lo hi r (insertNonFull t k v x) = true ∧
      itemsNode (insertNonFull t k v x) = insA k v (itemsNode x) := by
  have main : ∀ n : Nat, ∀ x : BTreeNode, sizeOf x ≤ n →
      ∀ lo hi : Option String, ∀ r : Bool,
      wfNode t lo hi r x = true → x.keys.length < 2 * t - 1 →
      lookupA k (itemsNode x) = none →
      okLo lo k = true → okHi hi k = true →
      wfNode t lo hi r (insertNonFull t k v x) = true ∧
      itemsNode (insertNonFull t k v x) = insA k v (itemsNode x) := by
    intro n
    induction n with
    | zero =>
      intro x hx
      obtain ⟨lf, ks, vs, cs⟩ := x
      simp at hx
    | succ n ihn =>
      intro x hx lo hi r hwf hnf hfresh hklo hkhi
      obtain ⟨lf, ks, vs, cs⟩ := x
      cases lf with
      | true =>
        simp only [wfNode, Bool.and_eq_true] at hwf
        obtain ⟨⟨⟨⟨hemp, hlen⟩, hs⟩, hmax⟩, hmin⟩ := hwf
        have hlen' : ks.length = vs.length := by simpa using of_decide_eq_true hlen
        simp only [BTreeNode.keys] at hnf
        have hfr : ∀ a ∈ ks, a ≠ k := by
          apply keys_ne_of_zip_lookup_none ks vs hlen'
          simpa [itemsNode] using hfresh
        have hidx : upperIdx k ks = leIdx k ks := upperIdx_eq_leIdx hs
        have hile : leIdx k ks ≤ ks.length := leIdx_le k ks
        have hbody : insertNonFull t k v (BTreeNode.mk true ks vs cs) =
            BTreeNode.mk true (ks.insertIdx (leIdx k ks) k)
              (vs.insertIdx (leIdx k ks) v) cs := by
          simp only [insertNonFull, hidx]
        rw [hbody]
        constructor
        · simp only [wfNode, Bool.and_eq_true]
          refine ⟨⟨⟨⟨hemp, ?_⟩, ?_⟩, ?_⟩, ?_⟩
          · simp only [decide_eq_true_eq]
            rw [List.length_insertIdx _ _ hile,
              List.length_insertIdx _ _ (by omega)]
            omega
          · exact sortedIn_insertIdx ks lo hi hs hklo hkhi hfr
          · simp only [decide_eq_true_eq]
            rw [List.length_insertIdx _ _ hile]
            omega
          · simp only [Bool.or_eq_true, decide_eq_true_eq] at hmin ⊢
            rw [List.length_insertIdx _ _ hile]
            rcases hmin with h | h
            · exact Or.inl h
            · exact Or.inr (by omega)
        · simp only [itemsNode]
          exact zip_insertIdx_insA ks vs hlen'
      | false =>
        simp only [wfNode, Bool.and_eq_true] at hwf
        obtain ⟨⟨⟨⟨⟨hlen, hs⟩, hmax⟩, hmin⟩, hclen⟩, hkids⟩ := hwf
        have hlen' : ks.length = vs.length := by simpa using of_decide_eq_true hlen
        have hclen' : cs.length = ks.length + 1 := by simpa using of_decide_eq_true hclen
        simp only [BTreeNode.keys] at hnf
        have hnode : ∀ y : BTreeNode, (∃ c0 ∈ cs, sizeOf y ≤ sizeOf c0) →
            ∀ lo' hi' : Option String,
            wfNode t lo' hi' false y = true → y.keys.length < 2 * t - 1 →
            lookupA k (itemsNode y) = none → okLo lo' k = true → okHi hi' k = true →
            wfNode t lo' hi' false (insertNonFull t k v y) = true ∧
            itemsNode (insertNonFull t k v y) = insA k v (itemsNode y) := by
          intro y hy lo' hi'
          obtain ⟨c0, hc0, hsz⟩ := hy
          have h1 := List.sizeOf_lt_of_mem hc0
          have h2 : sizeOf (BTreeNode.mk false ks vs cs) ≤ n + 1 := hx
          simp only [BTreeNode.mk.sizeOf_spec] at h2
          exact ihn y (by omega) lo' hi' false
        obtain ⟨K, V, C, heq, hKs, hKw, hKV, hKC, hK1, hK2, hKi⟩ :=
          insGoAux ht ks vs cs lo hnode hkids hs hlen' hclen'
            (by simpa [itemsNode] using hfresh) hklo hkhi
        rw [heq]
        constructor
        · simp only [wfNode, Bool.and_eq_true]
          refine ⟨⟨⟨⟨⟨?_, hKs⟩, ?_⟩, ?_⟩, ?_⟩, hKw⟩
          · simp [hKV]
          · simp only [decide_eq_true_eq]
            omega
          · simp only [Bool.or_eq_true, decide_eq_true_eq] at hmin ⊢
            rcases hmin with h | h
            · exact Or.inl h
            · exact Or.inr (by omega)
          · simp [hKC]
        · simp only [itemsNode]
          simpa [itemsNode] using hKi
  intro x
  exact main (sizeOf x) x le_rfl

theorem lookupA_updA_ne {k v k' : String} (hne : k' ≠ k)
    (l : List (String × String)) :
    lookupA k' (updA k v l) = lookupA k' l := by
  induction l with
  | nil => rfl
  | cons p rest ih =>
    obtain ⟨a, b⟩ := p
    by_cases hp : a = k
    · subst hp
      simp only [updA, List.map_cons, if_pos rfl, lookupA]
      rw [if_neg (fun h => hne h.symm), if_neg (fun h => hne h.symm)]
      simpa [updA] using ih
    · simp only [updA, List.map_cons, if_neg hp, lookupA]
      by_cases hpk : a = k'
      · rw [if_pos hpk, if_pos hpk]
      · rw [if_neg hpk, if_neg hpk]
        simpa [updA] using ih

theorem lookupA_updA_eq {k v : String} (l : List (String × String)) :
    lookupA k (updA k v l) = (lookupA k l).map (fun _ => v) := by
  induction l with
  | nil => rfl
  | cons p rest ih =>
    obtain ⟨a, b⟩ := p
    by_cases hp : a = k
    · subst hp
      simp only [updA, List.map_cons, if_pos rfl, lookupA]
      simp
    · simp only [updA, List.map_cons, if_neg hp, lookupA]
      simpa [updA] using ih

theorem wfNode_false_of_true {t : Nat} {lo hi : Option String} {x : BTreeNode}
    (hwf : wfNode t lo hi true x = true) (hmin : t - 1 ≤ x.keys.length) :
    wfNode t lo hi false x = true := by
  obtain ⟨lf, ks, vs, cs⟩ := x
  simp only [BTreeNode.keys] at hmin
  have hd : decide (t - 1 ≤ ks.length) = true := decide_eq_true hmin
  cases lf with
  | true =>
    simp only [wfNode, Bool.and_eq_true] at hwf ⊢
    exact ⟨hwf.1, by rw [Bool.false_or]; exact hd⟩
  | false =>
    simp only [wfNode, Bool.and_eq_true] at hwf ⊢
    exact ⟨⟨⟨hwf.1.1.1, by rw [Bool.false_or]; exact hd⟩, hwf.1.2⟩, hwf.2⟩

/-- `BTree.insert` (the in-memory effect, WAL aside) preserves root
well-formedness and acts on the enumeration as update-or-sorted-insert. -/
theorem insertTree_correct {t : Nat} (ht : 2 ≤ t) {k v : String}
    (x : BTreeNode) (hwf : wfRoot t x = true) :
    wfRoot t (insertTree t x k v) = true ∧
    itemsNode (insertTree t x k v) =
      (if (searchNode k x).isSome then updA k v (itemsNode x)
       else insA k v (itemsNode x)) := by
  have hfind := @searchNode_eq_lookup t x none none true k hwf
  by_cases hhit : (searchNode k x).isSome
  · have hbody : insertTree t x k v = updateNode k v x := by
      simp only [insertTree, if_pos hhit]
    rw [hbody, if_pos hhit]
    have := @updateNode_correct t k v x none none true hwf
    exact ⟨this.1, this.2⟩
  · have hfresh : lookupA k (itemsNode x) = none := by
      rw [← hfind]
      cases hs : searchNode k x with
      | none => rfl
      | some w => rw [hs] at hhit; simp at hhit
    rw [if_neg hhit]
    by_cases hfull : x.keys.length = 2 * t - 1
    · have hbody : insertTree t x k v =
          insertNonFull t k v (splitChild t (BTreeNode.mk false [] [] [x]) 0) := by
      -- root split path
        simp only [insertTree, if_neg hhit, if_pos hfull]
      have hxchild : wfNode t none none false x = true :=
        wfNode_false_of_true hwf (by omega)
      obtain ⟨hy, hz, hitems, hylen, hzlen, _, _, _, _⟩ :=
        splitNode_correct ht hxchild hfull
      have hsc : splitChild t (BTreeNode.mk false [] [] [x]) 0 =
          BTreeNode.mk false [(splitNode t x).2.1.1] [(splitNode t x).2.1.2]
            [(splitNode t x).1, (splitNode t x).2.2] := by
        simp only [splitChild]
        rw [show ([x] : List BTreeNode)[(0 : Nat)]? = some x from rfl]
        simp [List.insertIdx_zero, List.set_cons_zero]
      have htempwf : wfNode t none none true
          (BTreeNode.mk false [(splitNode t x).2.1.1] [(splitNode t x).2.1.2]
            [(splitNode t x).1, (splitNode t x).2.2]) = true := by
        simp only [wfNode, Bool.and_eq_true]
        refine ⟨⟨⟨⟨⟨by simp, ?_⟩, by simp only [decide_eq_true_eq]; simp; omega⟩,
          by simp⟩, by simp⟩, ?_⟩
        · simp [sortedIn_cons, okLo, okHi, sortedIn]
        · rw [wfKids_cons _ _ _ _ (by simp), Bool.and_eq_true]
          refine ⟨hy, ?_⟩
          simpa [wfKids] using hz
      have htempitems : itemsNode
          (BTreeNode.mk false [(splitNode t x).2.1.1] [(splitNode t x).2.1.2]
            [(splitNode t x).1, (splitNode t x).2.2]) = itemsNode x := by
        simp only [itemsNode, List.zip_cons_cons]
        rw [show ([] : List String).zip ([] : List String) = [] from rfl]
        rw [itemsGo_cons_cons]
        have h1 : itemsGo ([] : List (String × String)) [(splitNode t x).2.2] =
            itemsNode (splitNode t x).2.2 := by
          simp [itemsGo]
        rw [h1, ← hitems]
      have hrec := @insertNonFull_correct t ht k v
        (BTreeNode.mk false [(splitNode t x).2.1.1] [(splitNode t x).2.1.2]
          [(splitNode t x).1, (splitNode t x).2.2]) none none true htempwf
        (by simp [BTreeNode.keys]; omega)
        (by rw [htempitems]; exact hfresh) rfl rfl
      rw [hbody, hsc]
      refine ⟨hrec.1, ?_⟩
      rw [hrec.2, htempitems]
    · have hbody : insertTree t x k v = insertNonFull t k v x := by
        simp only [insertTree, if_neg hhit, if_neg hfull]
      have hle : x.keys.length ≤ 2 * t - 1 := by
        obtain ⟨lf, ks, vs, cs⟩ := x
        cases lf with
        | true =>
          have h := hwf
          simp only [wfRoot, wfNode, Bool.and_eq_true] at h
          simpa [BTreeNode.keys] using of_decide_eq_true h.1.2
        | false =>
          have h := hwf
          simp only [wfRoot, wfNode, Bool.and_eq_true] at h
          simpa [BTreeNode.keys] using of_decide_eq_true h.1.1.1.2
      rw [hbody]
      exact insertNonFull_correct ht x none none true hwf (by omega) hfresh rfl rfl

/-- The fresh root `BTreeNode(True)` of `BTree.__init__` is well-formed for
every minimum degree. -/
theorem emptyRoot_wf (t : Nat) : wfRoot t emptyRoot = true := by
  simp [wfRoot, wfNode, emptyRoot, sortedIn]

theorem itemsNode_emptyRoot : itemsNode emptyRoot = [] := by
  simp [itemsNode, emptyRoot]

theorem searchNode_emptyRoot (k : String) : searchNode k emptyRoot = none := by
  simp [searchNode, emptyRoot, lowerIdx]

/-- Search in the tree after an insertion: the inserted key reads back, all
other keys are untouched. -/
theorem insertTree_search {t : Nat} (ht : 2 ≤ t) {k v : String}
    (x : BTreeNode) (hwf : wfRoot t x = true) (k' : String) :
    searchNode k' (insertTree t x k v) =
      if k' = k then some v else searchNode k' x := by
  obtain ⟨hwf', hitems⟩ := @insertTree_correct t ht k v x hwf
  have hold := @searchNode_eq_lookup t x none none true k' hwf
  have hnew := @searchNode_eq_lookup t (insertTree t x k v) none none true k' hwf'
  rw [hnew, hitems, hold]
  by_cases hhit : (searchNode k x).isSome
  · rw [if_pos hhit]
    by_cases hk : k' = k
    · subst hk
      rw [if_pos rfl, lookupA_updA_eq]
      have hfind := @searchNode_eq_lookup t x none none true k' hwf
      rw [hfind] at hhit
      cases hl : lookupA k' (itemsNode x) with
      | none => rw [hl] at hhit; simp at hhit
      | some w => simp
    · rw [if_neg hk, lookupA_updA_ne hk]
  · rw [if_neg hhit]
    have hfresh : lookupA k (itemsNode x) = none := by
      have hfind := @searchNode_eq_lookup t x none none true k hwf
      rw [hfind] at hhit
      cases hl : lookupA k (itemsNode x) with
      | none => rfl
      | some w => rw [hl] at hhit; simp at hhit
    rw [lookupA_insA hfresh]

/-- `WriteAheadLog.recover` (`wal.py` lines 23–31): fold the logged insert
records, in file order, through the non-logging insert. -/
def replay (t : Nat) (ops : List (String × String)) : BTreeNode :=
  ops.foldl (fun x p => insertTree t x p.1 p.2) emptyRoot

/-- Last-write-wins view of a record sequence: the value of the last record
for `k`, if any. -/
def lww (k : String) (ops : List (String × String)) : Option String :=
  ops.foldl (fun acc p => if p.1 = k then some p.2 else acc) none

theorem foldl_insertTree_wf {t : Nat} (ht : 2 ≤ t) :
    ∀ (ops : List (String × String)) (x : BTreeNode),
      wfRoot t x = true →
      wfRoot t (ops.foldl (fun y p => insertTree t y p.1 p.2) x) = true := by
  intro ops
  induction ops with
  | nil => intro x hwf; exact hwf
  | cons p rest ih =>
    intro x hwf
    exact ih _ (insertTree_correct ht x hwf).1

theorem foldl_insertTree_search {t : Nat} (ht : 2 ≤ t) (k : String) :
    ∀ (ops : List (String × String)) (x : BTreeNode),
      wfRoot t x = true →
      searchNode k (ops.foldl (fun y p => insertTree t y p.1 p.2) x) =
        ops.foldl (fun acc p => if p.1 = k then some p.2 else acc)
          (searchNode k x) := by
  intro ops
  induction ops with
  | nil => intro x hwf; rfl
  | cons p rest ih =>
    intro x hwf
    simp only [List.foldl_cons]
    rw [ih _ (insertTree_correct ht x hwf).1,
      insertTree_search ht x hwf k]
    by_cases hk : p.1 = k
    · rw [hk]
    · rw [if_neg hk, if_neg (fun hc => hk hc.symm)]

/-- The tree recovered from a record sequence is well-formed. -/
theorem replay_wf {t : Nat} (ht : 2 ≤ t) (ops : List (String × String)) :
    wfRoot t (replay t ops) = true :=
  foldl_insertTree_wf ht ops emptyRoot (emptyRoot_wf t)

/-- Search in the recovered tree is last-write-wins over the record
sequence. -/
theorem replay_search {t : Nat} (ht : 2 ≤ t) (k : String)
    (ops : List (String × String)) :
    searchNode k (replay t ops) = lww k ops := by
  unfold replay lww
  rw [foldl_insertTree_search ht k ops emptyRoot (emptyRoot_wf t),
    searchNode_emptyRoot]

theorem replay_append {t : Nat} (ops : List (String × String))
    (p : String × String) :
    replay t (ops ++ [p]) = insertTree t (replay t ops) p.1 p.2 := by
  unfold replay
  rw [List.foldl_append]
  rfl

theorem lww_append (k : String) (ops more : List (String × String)) :
    lww k (ops ++ more) =
      more.foldl (fun acc p => if p.1 = k then some p.2 else acc) (lww k ops) := by
  unfold lww
  rw [List.foldl_append]

/-! ## The structural invariant of §4.3, stated in the spec's own terms -/

/-- Strictly ascending keys, as the spec phrases it (no bound threading). -/
theorem sortedIn_chain {lo hi : Option String} :
    ∀ {ks : List String}, sortedIn lo hi ks = true →
      List.Chain' (fun a b => a < b) ks := by
  intro ks
  induction ks generalizing lo with
  | nil => intro _; exact List.chain'_nil
  | cons a rest ih =>
    intro h
    simp only [sortedIn, Bool.and_eq_true] at h
    have htail := @ih (some a) h.2
    cases rest with
    | nil => simp
    | cons b rest' =>
      refine List.Chain'.cons ?_ htail
      have hb : okLo (some a) b = true := by
        simp only [sortedIn, Bool.and_eq_true] at h
        exact h.2.1.1
      simpa [okLo, decide_eq_true_eq] using hb

/-- The claimed structural facts, checked node by node: every non-root node
holds between `t-1` and `2t-1` keys, keys are strictly ascending with values
parallel to them, and leaves have no children. -/
def structOK (t : Nat) (isRoot : Bool) (x : BTreeNode) : Bool :=
  (isRoot || decide (t - 1 ≤ x.keys.length)) &&
  decide (x.keys.length ≤ 2 * t - 1) &&
  decide (List.Chain' (fun a b => a < b) x.keys) &&
  decide (x.values.length = x.keys.length) &&
  (!x.leaf || x.child.isEmpty) &&
  x.child.attach.all (fun c => structOK t false c.1)
termination_by sizeOf x
decreasing_by
  have := List.sizeOf_lt_of_mem c.2
  obtain ⟨lf, ks, vs, cs⟩ := x
  simp only [BTreeNode.child] at this
  simp
  omega

/-- Every child of a well-formed family of children is well-formed between
some bounds. -/
theorem wfKids_mem {t : Nat} :
    ∀ (cs : List BTreeNode) (lo : Option String) (keys : List String)
      (hi : Option String), wfKids t lo keys hi cs = true →
      ∀ c ∈ cs, ∃ lo' hi', wfNode t lo' hi' false c = true := by
  intro cs
  induction cs with
  | nil =>
    intro lo keys hi h c hc
    exact absurd hc (List.not_mem_nil c)
  | cons c0 cs' ih =>
    intro lo keys hi h c hc
    cases cs' with
    | nil =>
      cases keys with
      | nil =>
        rw [List.mem_singleton] at hc
        subst hc
        exact ⟨lo, hi, by simpa [wfKids] using h⟩
      | cons a ks => simp [wfKids] at h
    | cons c1 cs'' =>
      cases keys with
      | nil => simp [wfKids] at h
      | cons a ks =>
        simp only [wfKids, Bool.and_eq_true] at h
        rcases List.mem_cons.mp hc with hc0 | hcrest
        · subst hc0
          exact ⟨lo, some a, h.1⟩
        · exact ih (some a) ks hi h.2 c hcrest

/-- Well-formedness implies the spec-level structural facts at every node. -/
theorem structOK_of_wf {t : Nat} :
    ∀ (x : BTreeNode) (lo hi : Option String) (r : Bool),
      wfNode t lo hi r x = true → structOK t r x = true := by
  intro x
  induction x using nodeInd with
  | h lf ks vs cs ih =>
    intro lo hi r hwf
    rw [structOK]
    simp only [BTreeNode.keys, BTreeNode.values, BTreeNode.leaf, BTreeNode.child,
      Bool.and_eq_true, List.all_eq_true]
    cases lf with
    | true =>
      simp only [wfNode, Bool.and_eq_true] at hwf
      obtain ⟨⟨⟨⟨hemp, hlen⟩, hsort⟩, hmax⟩, hmin⟩ := hwf
      have hcs : cs = [] := by simpa using hemp
      subst hcs
      refine ⟨⟨⟨⟨⟨hmin, hmax⟩, decide_eq_true (sortedIn_chain hsort)⟩, ?_⟩,
        by simp⟩, ?_⟩
      · exact decide_eq_true (of_decide_eq_true hlen).symm
      · intro c hc
        exact absurd c.2 (List.not_mem_nil c.1)
    | false =>
      simp only [wfNode, Bool.and_eq_true] at hwf
      obtain ⟨⟨⟨⟨⟨hlen, hsort⟩, hmax⟩, hmin⟩, hclen⟩, hkids⟩ := hwf
      refine ⟨⟨⟨⟨⟨hmin, hmax⟩, decide_eq_true (sortedIn_chain hsort)⟩, ?_⟩,
        by simp⟩, ?_⟩
      · exact decide_eq_true (of_decide_eq_true hlen).symm
      · intro c hc
        obtain ⟨lo', hi', hwc⟩ := wfKids_mem cs lo ks hi hkids c.1 c.2
        exact ih c.1 c.2 lo' hi' false hwc

/-! ## The standalone B-Tree engine: tree plus write-ahead log -/

/-- The observable state of a standalone `BTree` opened on a WAL path: the
minimum degree, the parsed insert records of the log file, and the root. -/
structure BTreeEngine where
  t : Nat
  walContents : List (String × String)
  root : BTreeNode

/-- `BTree.__init__` (`btree.py` lines 44–60): a fresh empty root, the WAL
opened in append mode (its contents kept), then `WriteAheadLog.recover`
replays every logged record through the non-logging insert. -/
def btreeOpen (t : Nat) (walFile : List (String × String)) : BTreeEngine :=
  { t := t, walContents := walFile, root := replay t walFile }

/-- `BTree.insert` with `wal=True` (`btree.py` lines 80–110): append the
record to the log, then insert into the tree. -/
def btreeInsert (e : BTreeEngine) (k v : String) : BTreeEngine :=
  { e with walContents := e.walContents ++ [(k, v)],
           root := insertTree e.t e.root k v }

/-- `BTree.search` from the root. -/
def btreeSearch (e : BTreeEngine) (k : String) : Option String :=
  searchNode k e.root

/-- A sequence of inserts against an engine. -/
def btreeRun (e : BTreeEngine) (ops : List (String × String)) : BTreeEngine :=
  ops.foldl (fun e p => btreeInsert e p.1 p.2) e

theorem btreeRun_t (e : BTreeEngine) (ops : List (String × String)) :
    (btreeRun e ops).t = e.t := by
  unfold btreeRun
  induction ops generalizing e with
  | nil => rfl
  | cons p rest ih => exact ih (btreeInsert e p.1 p.2)

/-- Running inserts appends exactly those records to the WAL file. -/
theorem btreeRun_wal (e : BTreeEngine) (ops : List (String × String)) :
    (btreeRun e ops).walContents = e.walContents ++ ops := by
  unfold btreeRun
  induction ops generalizing e with
  | nil => simp
  | cons p rest ih =>
    simp only [List.foldl_cons]
    rw [ih (btreeInsert e p.1 p.2)]
    simp [btreeInsert]

/-- The root tracks the replay of the accumulated WAL. -/
theorem btreeRun_root (e : BTreeEngine)
    (h : e.root = replay e.t e.walContents) (ops : List (String × String)) :
    (btreeRun e ops).root = replay e.t (e.walContents ++ ops) := by
  unfold btreeRun
  induction ops generalizing e with
  | nil => simpa using h
  | cons p rest ih =>
    simp only [List.foldl_cons]
    have hstep : (btreeInsert e p.1 p.2).root =
        replay (btreeInsert e p.1 p.2).t (btreeInsert e p.1 p.2).walContents := by
      simp only [btreeInsert]
      rw [h, ← replay_append]
    have := ih (btreeInsert e p.1 p.2) hstep
    simpa [btreeInsert] using this

/-! ## The bloom filter, parameterized by the digest

`BloomFilter._hashes` feeds `item + str(i)` through MD5 and reduces the
digest modulo `size`. The MD5 digest itself is an opaque positive integer
function of the input string; every statement below holds for an arbitrary
digest function, so MD5 is modelled as a parameter `digest : String → Nat`. -/

/-- `BloomFilter._hashes` (`bloom_filter.py` lines 35–48). -/
def bloomHashes (digest : String → Nat) (size hash_count : Nat)
    (item : String) : List Nat :=
  (List.range hash_count).map (fun i => digest (item ++ toString i) % size)

/-- `BloomFilter` state: the bit array (`size` and `hash_count` are carried
alongside). -/
structure BloomState where
  size : Nat
  hash_count : Nat
  bit_array : List Nat

/-- `BloomFilter.__init__` (`bloom_filter.py` lines 22–33). -/
def bloomInit (size hash_count : Nat) : BloomState :=
  { size := size, hash_count := hash_count,
    bit_array := List.replicate size 0 }

/-- `BloomFilter.add` (`bloom_filter.py` lines 50–60): set the bit at every
hash index to 1. -/
def bloomAdd (digest : String → Nat) (b : BloomState) (item : String) :
    BloomState :=
  { b with
    bit_array :=
      List.foldl (fun arr idx => arr.set idx 1) b.bit_array
        (bloomHashes digest b.size b.hash_count item) }

/-- `BloomFilter.__contains__` (`bloom_filter.py` lines 62–75): all hash
indices hold a truthy (nonzero) bit. -/
def bloomContains (digest : String → Nat) (b : BloomState) (item : String) :
    Bool :=
  (bloomHashes digest b.size b.hash_count item).all
    (fun idx => b.bit_array.getD idx 0 != 0)

theorem bloomAdd_size (digest : String → Nat) (b : BloomState) (item : String) :
    (bloomAdd digest b item).size = b.size ∧
    (bloomAdd digest b item).hash_count = b.hash_count := ⟨rfl, rfl⟩

theorem foldl_set_length (idxs : List Nat) :
    ∀ arr : List Nat, (idxs.foldl (fun arr idx => arr.set idx 1) arr).length =
      arr.length := by
  induction idxs with
  | nil => intro arr; rfl
  | cons i rest ih =>
    intro arr
    rw [List.foldl_cons, ih]
    exact List.length_set arr i 1

/-- Setting bits never clears a bit. -/
theorem foldl_set_mono (idxs : List Nat) :
    ∀ arr : List Nat, ∀ j : Nat, arr.getD j 0 ≠ 0 →
      (idxs.foldl (fun arr idx => arr.set idx 1) arr).getD j 0 ≠ 0 := by
  induction idxs with
  | nil => intro arr j h; exact h
  | cons i rest ih =>
    intro arr j h
    rw [List.foldl_cons]
    refine ih _ j ?_
    by_cases hij : i = j
    · subst hij
      by_cases hrange : i < arr.length
      · rw [List.getD_eq_getElem?_getD, List.getElem?_set_self hrange]
        simp
      · rw [List.getD_eq_getElem?_getD,
          List.getElem?_eq_none (Nat.le_of_not_lt hrange)] at h
        simp at h
    · rw [List.getD_eq_getElem?_getD, List.getElem?_set_ne hij,
        ← List.getD_eq_getElem?_getD]
      exact h

/-- After the fold, every index of the list holds a set bit (indices in
range). -/
theorem foldl_set_sets (idxs : List Nat) :
    ∀ arr : List Nat, ∀ j ∈ idxs, j < arr.length →
      (idxs.foldl (fun arr idx => arr.set idx 1) arr).getD j 0 ≠ 0 := by
  induction idxs with
  | nil => intro arr j h; exact absurd h (List.not_mem_nil j)
  | cons i rest ih =>
    intro arr j hj hrange
    rw [List.foldl_cons]
    rcases List.mem_cons.mp hj with hji | hjest
    · subst hji
      refine foldl_set_mono rest _ j ?_
      rw [List.getD_eq_getElem?_getD, List.getElem?_set_self hrange]
      simp
    · exact ih _ j hjest (by rw [List.length_set]; exact hrange)

theorem bloomAdd_length (digest : String → Nat) (b : BloomState)
    (item : String) :
    (bloomAdd digest b item).bit_array.length = b.bit_array.length :=
  foldl_set_length _ b.bit_array

/-- Adding never clears membership: `contains` is monotone under `add`. -/
theorem bloomContains_mono (digest : String → Nat) (b : BloomState)
    (x y : String) (h : bloomContains digest b x = true) :
    bloomContains digest (bloomAdd digest b y) x = true := by
  simp only [bloomContains, List.all_eq_true, bne_iff_ne] at h ⊢
  intro idx hidx
  exact foldl_set_mono _ b.bit_array idx (h idx hidx)

/-- Adding an item makes `contains` true for it, provided the bit array has
its nominal size and the size is positive. -/
theorem bloomAdd_contains (digest : String → Nat) (b : BloomState)
    (x : String) (hlen : b.bit_array.length = b.size) (hpos : 1 ≤ b.size) :
    bloomContains digest (bloomAdd digest b x) x = true := by
  simp only [bloomContains, List.all_eq_true, bne_iff_ne]
  intro idx hidx
  have hlt : idx < b.bit_array.length := by
    simp only [bloomHashes, List.mem_map] at hidx
    obtain ⟨i, _, hi⟩ := hidx
    rw [hlen, ← hi]
    exact Nat.mod_lt _ hpos
  exact foldl_set_sets _ b.bit_array idx hidx hlt

/-- A sequence of `add` calls. -/
def bloomRun (digest : String → Nat) (b : BloomState) (items : List String) :
    BloomState :=
  items.foldl (bloomAdd digest) b

theorem bloomRun_contains (digest : String → Nat) (x : String) :
    ∀ (items : List String) (b : BloomState),
      b.bit_array.length = b.size → 1 ≤ b.size →
      (x ∈ items ∨ bloomContains digest b x = true) →
      bloomContains digest (bloomRun digest b items) x = true := by
  intro items
  induction items with
  | nil =>
    intro b hlen hpos hmem
    rcases hmem with hmem | hc
    · exact absurd hmem (List.not_mem_nil x)
    · exact hc
  | cons y rest ih =>
    intro b hlen hpos hmem
    have hlen' : (bloomAdd digest b y).bit_array.length =
        (bloomAdd digest b y).size := by
      rw [bloomAdd_length]
      exact hlen
    rcases hmem with hmem | hc
    · rcases List.mem_cons.mp hmem with hxy | hxr
      · subst hxy
        exact ih (bloomAdd digest b x) hlen' hpos
          (Or.inr (bloomAdd_contains digest b x hlen hpos))
      · exact ih (bloomAdd digest b y) hlen' hpos (Or.inl hxr)
    · exact ih (bloomAdd digest b y) hlen' hpos
        (Or.inr (bloomContains_mono digest b x y hc))

/-! ## Levenshtein distance (`levensthein.py`)

The two-row dynamic program is transcribed literally: `previous_row` starts
as `range(len(s2) + 1)`; each character of `s1` produces a `current_row`
whose head is `i + 1` and whose tail takes, per character of `s2`, the
minimum of insertion, deletion and substitution costs. -/

/-- The inner `for j, c2 in enumerate(s2)` loop: `prev` is the previous row,
`j` the current column, `curj` the last entry appended to the current row. -/
def levInner (c1 : Char) (prev : List Nat) : List Char → Nat → Nat → List Nat
  | [], _, _ => []
  | c2 :: rest, j, curj =>
    let insertions := prev.getD (j + 1) 0 + 1
    let deletions := curj + 1
    let substitutions := prev.getD j 0 + (if c1 = c2 then 0 else 1)
    let m := min insertions (min deletions substitutions)
    m :: levInner c1 prev rest (j + 1) m

/-- The outer `for i, c1 in enumerate(s1)` loop; returns the final
`previous_row`. -/
def levOuter (s2 : List Char) : List Char → List Nat → Nat → List Nat
  | [], prev, _ => prev
  | c1 :: rest, prev, i =>
    levOuter s2 rest ((i + 1) :: levInner c1 prev s2 0 (i + 1)) (i + 1)

/-- The distance for `len(s1) ≥ len(s2)`: run the rows and take
`previous_row[-1]`. -/
def levCore (l1 l2 : List Char) : Nat :=
  (levOuter l2 l1 (List.range (l2.length + 1)) 0).getLastD 0

/-- `Levenshtein.distance` (`levensthein.py` lines 10–38): swap once so the
first argument is the longer string, then run the dynamic program. -/
def levDistance (s1 s2 : String) : Nat :=
  if s1.length < s2.length then levCore s2.data s1.data
  else levCore s1.data s2.data

/-! ## The fuzzy scan of `LSMTree.fuzzy_get` -/

/-- One pass over a stream of records with the `checked_keys` set: a key
already checked is skipped; otherwise its Levenshtein distance to the search
key is computed, and when within range the record is emitted unless the
value is the tombstone, the key being remembered either way. -/
def fuzzyGo (skey : String) (maxd : Nat) :
    List (String × String) → List String → List (String × String)
  | [], _ => []
  | (k, v) :: rest, checked =>
    if k ∈ checked then fuzzyGo skey maxd rest checked
    else if levDistance skey k ≤ maxd then
      (if v ≠ TOMBSTONE then [(k, v)] else []) ++
        fuzzyGo skey maxd rest (k :: checked)
    else fuzzyGo skey maxd rest checked

/-- First-occurrence-wins deduplication by key: the "newest occurrence" of
each key in a newest-first stream. -/
def dedupKeys : List (String × String) → List String → List (String × String)
  | [], _ => []
  | (k, v) :: rest, seen =>
    if k ∈ seen then dedupKeys rest seen
    else (k, v) :: dedupKeys rest (k :: seen)

/-- The scan emits exactly the first occurrences that are within distance
and not tombstoned. -/
theorem fuzzyGo_eq_filter_dedup (skey : String) (maxd : Nat) :
    ∀ (l : List (String × String)) (checked seen : List String),
      (∀ k : String, k ∈ checked ↔ (k ∈ seen ∧ levDistance skey k ≤ maxd)) →
      fuzzyGo skey maxd l checked =
        (dedupKeys l seen).filter
          (fun p => decide (levDistance skey p.1 ≤ maxd) &&
            decide (p.2 ≠ TOMBSTONE)) := by
  intro l
  induction l with
  | nil => intro checked seen hinv; rfl
  | cons p rest ih =>
    intro checked seen hinv
    obtain ⟨k, v⟩ := p
    by_cases hchk : k ∈ checked
    · have hseen : k ∈ seen := ((hinv k).mp hchk).1
      have hdist : levDistance skey k ≤ maxd := ((hinv k).mp hchk).2
      rw [fuzzyGo, if_pos hchk, dedupKeys, if_pos hseen]
      exact ih checked seen hinv
    · by_cases hdist : levDistance skey k ≤ maxd
      · have hseen : k ∉ seen := by
          intro hc
          exact hchk ((hinv k).mpr ⟨hc, hdist⟩)
        rw [fuzzyGo, if_neg hchk, if_pos hdist, dedupKeys, if_neg hseen,
          List.filter_cons]
        have hinv' : ∀ k' : String, k' ∈ (k :: checked) ↔
            (k' ∈ (k :: seen) ∧ levDistance skey k' ≤ maxd) := by
          intro k'
          constructor
          · intro h
            rcases List.mem_cons.mp h with hk' | hk'
            · subst hk'
              exact ⟨List.mem_cons_self _ _, hdist⟩
            · have := (hinv k').mp hk'
              exact ⟨List.mem_cons_of_mem _ this.1, this.2⟩
          · intro h
            rcases List.mem_cons.mp h.1 with hk' | hk'
            · subst hk'
              exact List.mem_cons_self _ _
            · exact List.mem_cons_of_mem _ ((hinv k').mpr ⟨hk', h.2⟩)
        rw [ih (k :: checked) (k :: seen) hinv']
        by_cases hv : v = TOMBSTONE
        · simp [hv, hdist]
        · simp [hv, hdist]
      · by_cases hseen : k ∈ seen
        · rw [fuzzyGo, if_neg hchk, if_neg hdist, dedupKeys, if_pos hseen]
          exact ih checked seen hinv
        · rw [fuzzyGo, if_neg hchk, if_neg hdist, dedupKeys, if_neg hseen,
            List.filter_cons]
          have hinv' : ∀ k' : String, k' ∈ checked ↔
              (k' ∈ (k :: seen) ∧ levDistance skey k' ≤ maxd) := by
            intro k'
            constructor
            · intro h
              have := (hinv k').mp h
              exact ⟨List.mem_cons_of_mem _ this.1, this.2⟩
            · intro h
              rcases List.mem_cons.mp h.1 with hk' | hk'
              · subst hk'
                exact absurd h.2 hdist
              · exact (hinv k').mpr ⟨hk', h.2⟩
          rw [ih checked (k :: seen) hinv']
          simp [hdist]

/-- The keys kept by the deduplication are distinct and avoid `seen`. -/
theorem dedupKeys_nodup :
    ∀ (l : List (String × String)) (seen : List String),
      ((dedupKeys l seen).map Prod.fst).Nodup ∧
      ∀ p ∈ dedupKeys l seen, p.1 ∉ seen := by
  intro l
  induction l with
  | nil => intro seen; exact ⟨List.nodup_nil, by intro p hp; cases hp⟩
  | cons q rest ih =>
    intro seen
    obtain ⟨k, v⟩ := q
    by_cases hseen : k ∈ seen
    · rw [dedupKeys, if_pos hseen]
      exact ih seen
    · rw [dedupKeys, if_neg hseen]
      obtain ⟨hnd, havoid⟩ := ih (k :: seen)
      constructor
      · simp only [List.map_cons, List.nodup_cons]
        refine ⟨?_, hnd⟩
        intro hc
        obtain ⟨p, hp, hpk⟩ := List.mem_map.mp hc
        exact havoid p hp (hpk ▸ List.mem_cons_self _ _)
      · intro p hp
        rcases List.mem_cons.mp hp with hp0 | hp'
        · subst hp0
          exact hseen
        · intro hc
          exact havoid p hp' (List.mem_cons_of_mem _ hc)

/-! ## SSTable writing (`sstable.py`)

`SSTable.write_from_memtable` writes one line `json.dumps({key: value}) + '\n'`
per record and advances `offset` by `len(line.encode('utf-8'))`, recording
`(key, offset)` in the sparse index for every record whose running position
`i` satisfies `i % SPARSE_INDEX_STRIDE == 0`. `json.dumps` runs with its
default `ensure_ascii=True`, so every written character is ASCII and is
escaped as CPython's `py_encode_basestring_ascii` does: backslash, quote and
the five short control escapes, printable ASCII `0x20`–`0x7e` verbatim, and
`\uXXXX` otherwise (a surrogate pair above `0xFFFF`). -/

def SPARSE_INDEX_STRIDE : Nat := 10

/-- The number of bytes of one character under UTF-8
(`len(ch.encode('utf-8'))`). -/
def utf8Size (c : Char) : Nat :=
  if c.toNat < 0x80 then 1
  else if c.toNat < 0x800 then 2
  else if c.toNat < 0x10000 then 3
  else 4

/-- `len(s.encode('utf-8'))` of a character list. -/
def utf8Len (l : List Char) : Nat := (l.map utf8Size).sum

/-- A lowercase hexadecimal digit, as `'%04x' % n` prints one. -/
def hexDigit (n : Nat) : Char :=
  Char.ofNat (if n < 10 then 48 + n else 87 + n)

/-- A `\uXXXX` escape. -/
def uEsc (n : Nat) : List Char :=
  ['\\', 'u', hexDigit (n / 4096 % 16), hexDigit (n / 256 % 16),
    hexDigit (n / 16 % 16), hexDigit (n % 16)]

/-- One character of a JSON string literal under `ensure_ascii=True`. -/
def jsonEscChar (c : Char) : List Char :=
  if c = '\\' then ['\\', '\\']
  else if c = '"' then ['\\', '"']
  else if c = Char.ofNat 8 then ['\\', 'b']
  else if c = Char.ofNat 9 then ['\\', 't']
  else if c = Char.ofNat 10 then ['\\', 'n']
  else if c = Char.ofNat 12 then ['\\', 'f']
  else if c = Char.ofNat 13 then ['\\', 'r']
  else if 0x20 ≤ c.toNat ∧ c.toNat ≤ 0x7e then [c]
  else if c.toNat < 0x10000 then uEsc c.toNat
  else uEsc (0xd800 + (c.toNat - 0x10000) / 1024) ++
    uEsc (0xdc00 + (c.toNat - 0x10000) % 1024)

/-- The body of a JSON string literal. -/
def jsonEscape (s : String) : List Char :=
  (s.data.map jsonEscChar).flatten

/-- `json.dumps` of the one-record object, without the trailing newline. -/
def jsonRecordBody (k v : String) : List Char :=
  [Char.ofNat 123, '"'] ++ jsonEscape k ++ ['"', ':', ' ', '"'] ++
    jsonEscape v ++ ['"', Char.ofNat 125]

/-- One written line: `json.dumps({key: value}) + '\n'`. -/
def jsonRecordLine (k v : String) : List Char :=
  jsonRecordBody k v ++ [Char.ofNat 10]

/-- The sparse index built by the write loop of `write_from_memtable`
(`sstable.py` lines 120–137), from the running byte offset and position. -/
def buildIndex : List (String × String) → Nat → Nat → List (String × Nat)
  | [], _, _ => []
  | (k, v) :: rest, offset, i =>
    (if i % SPARSE_INDEX_STRIDE = 0 then [(k, offset)] else []) ++
      buildIndex rest (offset + utf8Len (jsonRecordLine k v)) (i + 1)

/-- The `.sst` file the write loop produces: the written lines,
concatenated. -/
def sstFile (M : List (String × String)) : List Char :=
  (M.map (fun p => jsonRecordLine p.1 p.2)).flatten

/-- `f.seek(off); f.readline()`: the characters up to and including the next
newline. (The file is all ASCII, see `sstFile_ascii`, so byte offsets and
character offsets coincide.) -/
def readLineAt (file : List Char) (off : Nat) : List Char :=
  (file.drop off).takeWhile (fun c => c ≠ Char.ofNat 10) ++ [Char.ofNat 10]

theorem hexDigit_ok : ∀ n < 16,
    (hexDigit n).toNat < 0x80 ∧ hexDigit n ≠ Char.ofNat 10 := by decide

theorem uEsc_ok {n : Nat} :
    ∀ d ∈ uEsc n, d.toNat < 0x80 ∧ d ≠ Char.ofNat 10 := by
  have h4 : ∀ m : Nat, (hexDigit (m % 16)).toNat < 0x80 ∧
      hexDigit (m % 16) ≠ Char.ofNat 10 :=
    fun m => hexDigit_ok _ (Nat.mod_lt _ (by decide))
  intro d hd
  simp only [uEsc, List.mem_cons, List.not_mem_nil, or_false] at hd
  rcases hd with rfl | rfl | rfl | rfl | rfl | rfl
  · exact ⟨by decide, by decide⟩
  · exact ⟨by decide, by decide⟩
  · exact h4 _
  · exact h4 _
  · exact h4 _
  · exact h4 _

/-- Every character the JSON escaper emits is ASCII and is not a newline. -/
theorem jsonEscChar_ok (c : Char) :
    ∀ d ∈ jsonEscChar c, d.toNat < 0x80 ∧ d ≠ Char.ofNat 10 := by
  have pair : ∀ (a b : Char), a.toNat < 0x80 → a ≠ Char.ofNat 10 →
      b.toNat < 0x80 → b ≠ Char.ofNat 10 →
      ∀ d ∈ [a, b], d.toNat < 0x80 ∧ d ≠ Char.ofNat 10 := by
    intro a b ha1 ha2 hb1 hb2 d hd
    simp only [List.mem_cons, List.not_mem_nil, or_false] at hd
    rcases hd with rfl | rfl
    · exact ⟨ha1, ha2⟩
    · exact ⟨hb1, hb2⟩
  intro d hd
  unfold jsonEscChar at hd
  split at hd
  · exact pair _ _ (by decide) (by decide) (by decide) (by decide) d hd
  split at hd
  · exact pair _ _ (by decide) (by decide) (by decide) (by decide) d hd
  split at hd
  · exact pair _ _ (by decide) (by decide) (by decide) (by decide) d hd
  split at hd
  · exact pair _ _ (by decide) (by decide) (by decide) (by decide) d hd
  split at hd
  · exact pair _ _ (by decide) (by decide) (by decide) (by decide) d hd
  split at hd
  · exact pair _ _ (by decide) (by decide) (by decide) (by decide) d hd
  split at hd
  · exact pair _ _ (by decide) (by decide) (by decide) (by decide) d hd
  split at hd
  · rename_i hrange
    rw [List.mem_singleton] at hd
    subst hd
    obtain ⟨hlo, hhi⟩ := hrange
    refine ⟨by omega, fun hc => ?_⟩
    subst hc
    exact absurd hlo (by decide)
  split at hd
  · exact uEsc_ok d hd
  · rcases List.mem_append.mp hd with h | h
    · exact uEsc_ok d h
    · exact uEsc_ok d h

theorem utf8Len_ascii :
    ∀ l : List Char, (∀ d ∈ l, d.toNat < 0x80) → utf8Len l = l.length := by
  intro l
  induction l with
  | nil => intro _; rfl
  | cons c rest ih =>
    intro h
    have hc : utf8Size c = 1 := by
      unfold utf8Size
      rw [if_pos (h c (List.mem_cons_self c rest))]
    simp only [utf8Len, List.map_cons, List.sum_cons, List.length_cons, hc]
    have := ih (fun d hd => h d (List.mem_cons_of_mem c hd))
    simp only [utf8Len] at this
    omega

theorem jsonRecordBody_ok (k v : String) :
    ∀ d ∈ jsonRecordBody k v, d.toNat < 0x80 ∧ d ≠ Char.ofNat 10 := by
  intro d hd
  simp only [jsonRecordBody, List.append_assoc, List.mem_append,
    List.mem_cons, List.not_mem_nil, or_false] at hd
  have hesc : ∀ s : String, d ∈ jsonEscape s →
      d.toNat < 0x80 ∧ d ≠ Char.ofNat 10 := by
    intro s hs
    simp only [jsonEscape] at hs
    obtain ⟨l, hl, hdl⟩ := List.mem_flatten.mp hs
    obtain ⟨c, _, hcl⟩ := List.mem_map.mp hl
    exact jsonEscChar_ok c d (hcl ▸ hdl)
  rcases hd with (rfl | rfl) | hk | (rfl | rfl | rfl | rfl) | hv | (rfl | rfl)
  · exact ⟨by decide, by decide⟩
  · exact ⟨by decide, by decide⟩
  · exact hesc k hk
  · exact ⟨by decide, by decide⟩
  · exact ⟨by decide, by decide⟩
  · exact ⟨by decide, by decide⟩
  · exact ⟨by decide, by decide⟩
  · exact hesc v hv
  · exact ⟨by decide, by decide⟩
  · exact ⟨by decide, by decide⟩

/-- Each written line's byte length equals its character count: it is pure
ASCII under `ensure_ascii=True`. -/
theorem utf8Len_recordLine (k v : String) :
    utf8Len (jsonRecordLine k v) = (jsonRecordLine k v).length := by
  refine utf8Len_ascii _ ?_
  intro d hd
  simp only [jsonRecordLine, List.mem_append, List.mem_singleton] at hd
  rcases hd with hd | rfl
  · exact (jsonRecordBody_ok k v d hd).1
  · decide

/-- The whole `.sst` file is ASCII, so byte offsets are character offsets. -/
theorem sstFile_ascii (M : List (String × String)) :
    utf8Len (sstFile M) = (sstFile M).length := by
  refine utf8Len_ascii _ ?_
  intro d hd
  simp only [sstFile] at hd
  obtain ⟨l, hl, hdl⟩ := List.mem_flatten.mp hd
  obtain ⟨p, _, hpl⟩ := List.mem_map.mp hl
  rw [← hpl] at hdl
  simp only [jsonRecordLine, List.mem_append, List.mem_singleton] at hdl
  rcases hdl with hdl | rfl
  · exact (jsonRecordBody_ok p.1 p.2 d hdl).1
  · decide

theorem takeWhile_append_cons {α} (p : α → Bool) (l : List α) (a : α)
    (rest : List α) (hall : ∀ x ∈ l, p x = true) (ha : p a = false) :
    (l ++ a :: rest).takeWhile p = l := by
  induction l with
  | nil => simp [List.takeWhile_cons, ha]
  | cons x xs ih =>
    rw [List.cons_append,
      List.takeWhile_cons_of_pos (hall x (List.mem_cons_self x xs)),
      ih (fun y hy => hall y (List.mem_cons_of_mem x hy))]

/-- Index cardinality: entries are recorded at positions `i, i+10, …`. -/
theorem buildIndex_length :
    ∀ (M : List (String × String)) (off i : Nat),
      (buildIndex M off i).length =
        (i + M.length + 9) / 10 - (i + 9) / 10 := by
  intro M
  induction M with
  | nil => intro off i; simp [buildIndex]
  | cons p rest ih =>
    intro off i
    obtain ⟨k, v⟩ := p
    rw [buildIndex]
    rw [List.length_append, ih _ (i + 1)]
    by_cases hi : i % SPARSE_INDEX_STRIDE = 0
    · rw [if_pos hi]
      have hi10 : i % 10 = 0 := hi
      simp only [List.length_cons, List.length_nil, List.length_cons]
      omega
    · rw [if_neg hi]
      have hi10 : ¬ i % 10 = 0 := hi
      simp only [List.length_nil, List.length_cons]
      omega

/-- Every sparse-index entry points at the start of the line of a record
with that key: seeking there and reading one line returns that record's
line. -/
theorem buildIndex_reads :
    ∀ (M : List (String × String)) (i : Nat) (pre : List Char),
      ∀ p ∈ buildIndex M pre.length i,
        ∃ v, (p.1, v) ∈ M ∧
          readLineAt (pre ++ sstFile M) p.2 = jsonRecordLine p.1 v := by
  intro M
  induction M with
  | nil =>
    intro i pre p hp
    simp [buildIndex] at hp
  | cons q rest ih =>
    intro i pre p hp
    obtain ⟨k, v⟩ := q
    have hfile : sstFile ((k, v) :: rest) =
        jsonRecordLine k v ++ sstFile rest := by
      simp [sstFile]
    rw [buildIndex] at hp
    rcases List.mem_append.mp hp with hhead | htail
    · have hp' : p = (k, pre.length) := by
        by_cases hi : i % SPARSE_INDEX_STRIDE = 0
        · rw [if_pos hi, List.mem_singleton] at hhead
          exact hhead
        · rw [if_neg hi] at hhead
          exact absurd hhead (List.not_mem_nil p)
      subst hp'
      refine ⟨v, List.mem_cons_self _ _, ?_⟩
      rw [hfile, readLineAt, List.drop_left]
      have hsplit : jsonRecordLine k v ++ sstFile rest =
          jsonRecordBody k v ++ (Char.ofNat 10 :: sstFile rest) := by
        simp [jsonRecordLine]
      rw [hsplit, takeWhile_append_cons _ _ _ _
        (fun x hx => decide_eq_true (jsonRecordBody_ok k v x hx).2)
        (by simp), jsonRecordLine]
    · have hlen : pre.length + utf8Len (jsonRecordLine k v) =
          (pre ++ jsonRecordLine k v).length := by
        rw [List.length_append, utf8Len_recordLine]
      rw [hlen] at htail
      obtain ⟨v', hv', hread⟩ := ih (i + 1) (pre ++ jsonRecordLine k v) p htail
      refine ⟨v', List.mem_cons_of_mem _ hv', ?_⟩
      rw [hfile, ← List.append_assoc]
      exact hread

/-! ## The min-heap of the k-way merge (`heap.py`)

Heap items are the tuples `(key, value, segment_index, iterator)` that
`LSMTree.compact` pushes; the iterator is modelled by the list of records it
has yet to yield. Python compares tuples lexicographically and would raise
on comparing two iterators, but the comparison never gets that far: the
segment indices of any two items in the heap differ. -/

def HItem : Type := String × String × Nat × List (String × String)

instance : Inhabited HItem := ⟨("", "", 0, [])⟩

/-- Python's `<` on the pushed tuples: key, then value, then segment
index. -/
def hLt (a b : HItem) : Bool :=
  decide (a.1 < b.1) ||
    (decide (a.1 = b.1) && (decide (a.2.1 < b.2.1) ||
      (decide (a.2.1 = b.2.1) && decide (a.2.2.1 < b.2.2.1))))

/-- `MinHeap._heapify_up` (`heap.py` lines 33–37). -/
def heapifyUp (h : List HItem) (i : Nat) : List HItem :=
  if hpos : 0 < i then
    let p := (i - 1) / 2
    if hLt (h.getD i default) (h.getD p default) then
      heapifyUp ((h.set i (h.getD p default)).set p (h.getD i default)) p
    else h
  else h
termination_by i
decreasing_by omega

/-- The `smallest` candidate after the left-child test of
`MinHeap._heapify_down` (`heap.py` lines 44–45). -/
def heapSm1 (h : List HItem) (i : Nat) : Nat :=
  if 2 * i + 1 < h.length &&
      hLt (h.getD (2 * i + 1) default) (h.getD i default) then 2 * i + 1
  else i

/-- The `smallest` candidate after the right-child test (lines 47–48). -/
def heapSm2 (h : List HItem) (i s1 : Nat) : Nat :=
  if 2 * i + 2 < h.length &&
      hLt (h.getD (2 * i + 2) default) (h.getD s1 default) then 2 * i + 2
  else s1

/-- The index `smallest` computed by `MinHeap._heapify_down`. -/
def heapSmallest (h : List HItem) (i : Nat) : Nat :=
  heapSm2 h i (heapSm1 h i)

theorem heapSm1_spec (h : List HItem) (i : Nat) :
    heapSm1 h i = i ∨ (i < heapSm1 h i ∧ heapSm1 h i < h.length) := by
  unfold heapSm1
  split
  · rename_i hcond
    rw [Bool.and_eq_true] at hcond
    exact Or.inr ⟨by omega, of_decide_eq_true hcond.1⟩
  · exact Or.inl rfl

theorem heapSm2_spec (h : List HItem) (i s1 : Nat)
    (hs1 : s1 = i ∨ (i < s1 ∧ s1 < h.length)) :
    heapSm2 h i s1 = i ∨ (i < heapSm2 h i s1 ∧ heapSm2 h i s1 < h.length) := by
  unfold heapSm2
  split
  · rename_i hcond
    rw [Bool.and_eq_true] at hcond
    exact Or.inr ⟨by omega, of_decide_eq_true hcond.1⟩
  · exact hs1

theorem heapSmallest_spec (h : List HItem) (i : Nat) :
    heapSmallest h i = i ∨
      (i < heapSmallest h i ∧ heapSmallest h i < h.length) :=
  heapSm2_spec h i (heapSm1 h i) (heapSm1_spec h i)

/-- `MinHeap._heapify_down` (`heap.py` lines 39–52). -/
def heapifyDown (h : List HItem) (i : Nat) : List HItem :=
  if hne : heapSmallest h i ≠ i then
    heapifyDown
      ((h.set i (h.getD (heapSmallest h i) default)).set (heapSmallest h i)
        (h.getD i default)) (heapSmallest h i)
  else h
termination_by h.length - i
decreasing_by
  rcases heapSmallest_spec h i with heq | ⟨hgt, hlt⟩
  · exact absurd heq hne
  · simp only [List.length_set]
    omega

/-- `MinHeap.heappush` (`heap.py` lines 12–17): append, then sift up from
the last position. -/
def heappush (h : List HItem) (item : HItem) : List HItem :=
  heapifyUp (h ++ [item]) h.length

/-- `MinHeap.heappop` (`heap.py` lines 19–31): `none` models the
`IndexError` on an empty heap; otherwise take the root, move the last
element to the front and sift it down. -/
def heappop : List HItem → Option (HItem × List HItem)
  | [] => none
  | [x] => some (x, [])
  | x :: y :: rest =>
    some (x, heapifyDown (((x :: y :: rest).dropLast).set 0
      ((x :: y :: rest).getLastD default)) 0)

/-! ## The LSM engine state (`lsmtree.py`)

The observable state of an `LSMTree` in its directory: the parsed records of
`btree.wal`, the memtable root, the record lists of the `.sst` segment files
(oldest first), and the segment counter. The bloom-filter and sparse-index
sidecars are functions of the segment contents and are treated by the
dedicated sections above. -/

structure LSMState where
  wal : List (String × String)
  memRoot : BTreeNode
  segments : List (List (String × String))
  segmentCounter : Nat

/-- `LSMTree.__init__` on a fresh directory (`lsmtree.py` lines 36–52): the
memtable is a `BTree(t=5)` recovered from the (empty) WAL, no segments. -/
def lsmInit : LSMState :=
  { wal := [], memRoot := emptyRoot, segments := [], segmentCounter := 0 }

/-- `LSMTree._flush_memtable` (`lsmtree.py` lines 142–155): nothing happens
on an empty memtable; otherwise the memtable's items become a new segment
(`write_from_memtable` of `dict(items)`, whose sorted distinct-key item list
is the memtable enumeration itself), the counter advances, and the
replacement memtable is a new `BTree` against the same WAL path — whose
constructor replays the WAL, which `open(.., mode='a+')` has kept in full
(`wal.py` line 13). -/
def flushOp (s : LSMState) : LSMState :=
  if itemsNode s.memRoot = [] then s
  else
    { s with
      segments := s.segments ++ [itemsNode s.memRoot],
      segmentCounter := s.segmentCounter + 1,
      memRoot := replay 5 s.wal }

/-- `LSMTree.put` (`lsmtree.py` lines 73–88): `BTree.insert` appends the
record to the WAL and inserts into the memtable; the memtable is flushed
once its item count reaches the threshold. -/
def putOp (th : Nat) (s : LSMState) (k v : String) : LSMState :=
  if th ≤ (itemsNode (insertTree 5 s.memRoot k v)).length then
    flushOp
      { s with
        wal := s.wal ++ [(k, v)],
        memRoot := insertTree 5 s.memRoot k v }
  else
    { s with
      wal := s.wal ++ [(k, v)],
      memRoot := insertTree 5 s.memRoot k v }

/-- Sum of the segments' record counts, plus one: an upper bound on the
iterations of the merge loop (each iteration pops one heap entry, and every
record enters the heap exactly once). -/
def compactFuel (segs : List (List (String × String))) : Nat :=
  segs.foldl (fun n seg => n + seg.length) 1

/-- The heap-priming loop of `LSMTree.compact` (`lsmtree.py` lines
179–186): push the first record of each non-empty segment, tagged with its
segment index. -/
def primeHeap (segs : List (List (String × String))) : List HItem :=
  (segs.enum).foldl
    (fun h pr =>
      match pr.2 with
      | [] => h
      | q :: qs => heappush h (q.1, q.2, pr.1, qs)) []

/-- The `while min_heap:` merge loop of `LSMTree.compact` (`lsmtree.py`
lines 188–217), including the post-loop flush of `last_key`. `merged` models
the `merged_data` dict (latest binding first, `get` = `lookupA`); `allKeys`
and `out` accumulate `all_keys` and the records appended to the temp file.
The fuel only bounds the iteration count and never runs out when started at
`compactFuel` (Python's loop terminates for the same reason); `.get` of a
missing `last_key` cannot occur, as `last_key` is always recorded in
`merged_data` in the iteration that sets it. -/
def mergeLoop :
    Nat → List HItem → Option String → List (String × String) →
      List String → List (String × String) →
      List String × List (String × String)
  | 0, _, _, _, allKeys, out => (allKeys, out)
  | fuel + 1, heap, lastKey, merged, allKeys, out =>
    match heappop heap with
    | none =>
      match lastKey with
      | none => (allKeys, out)
      | some lk =>
        if (lookupA lk merged).getD "" ≠ TOMBSTONE then
          (allKeys ++ [lk], out ++ [(lk, (lookupA lk merged).getD "")])
        else (allKeys, out)
    | some (item, heap1) =>
      match item with
      | (key, value, segIdx, segIter) =>
        let step :
            List String × List (String × String) × Option String :=
          if lastKey ≠ some key then
            match lastKey with
            | some lk =>
              if (lookupA lk merged).getD "" ≠ TOMBSTONE then
                (allKeys ++ [lk],
                  out ++ [(lk, (lookupA lk merged).getD "")], some key)
              else (allKeys, out, some key)
            | none => (allKeys, out, some key)
          else (allKeys, out, lastKey)
        let merged1 := (key, value) :: merged
        let heap2 :=
          match segIter with
          | [] => heap1
          | q :: qs => heappush heap1 (q.1, q.2, segIdx, qs)
        mergeLoop fuel heap2 step.2.2 merged1 step.1 step.2.1

/-- `LSMTree.compact` (`lsmtree.py` lines 157–252): fewer than two segments
is a no-op; otherwise the k-way merge produces the records of a single
replacement segment and the counter advances. The WAL and the memtable are
not touched. -/
def compactOp (s : LSMState) : LSMState :=
  if s.segments.length < 2 then s
  else
    { s with
      segments :=
        [(mergeLoop (compactFuel s.segments) (primeHeap s.segments)
          none [] [] []).2],
      segmentCounter := s.segmentCounter + 1 }

/-- The engine operations a client can drive: `put`, `delete` (a put of the
tombstone, `lsmtree.py` lines 132–140), an explicit memtable flush
(`close`, lines 255–257), and `compact`. -/
inductive LSMOp where
  | put (k v : String)
  | del (k : String)
  | flush
  | compact

def applyOp (th : Nat) (s : LSMState) : LSMOp → LSMState
  | .put k v => putOp th s k v
  | .del k => putOp th s k TOMBSTONE
  | .flush => flushOp s
  | .compact => compactOp s

def runOps (th : Nat) (s : LSMState) (ops : List LSMOp) : LSMState :=
  ops.foldl (applyOp th) s

/-- The WAL records a sequence of operations appends. -/
def walOf : List LSMOp → List (String × String)
  | [] => []
  | .put k v :: rest => (k, v) :: walOf rest
  | .del k :: rest => (k, TOMBSTONE) :: walOf rest
  | .flush :: rest => walOf rest
  | .compact :: rest => walOf rest

/-- `LSMTree.get` (`lsmtree.py` lines 90–130) below the memtable: walk the
segments newest to oldest; `sstGet` is the point-read contract of
`SSTable.get` (the record found by key, the tombstone mapped to `None` at
`sstable.py` line 189 — so the outer tombstone test at `lsmtree.py` line
122 never fires), and the bloom-filter fast path only ever skips segments
whose write never saw the key (`bloomRun_contains`), which a key-directed
read cannot distinguish. -/
def sstGet (records : List (String × String)) (k : String) : Option String :=
  match lookupA k records with
  | none => none
  | some v => if v = TOMBSTONE then none else some v

def getSegs (k : String) : List (List (String × String)) → Option String
  | [] => none
  | seg :: rest =>
    match sstGet seg k with
    | some v => if v = TOMBSTONE then none else some v
    | none => getSegs k rest

/-- `LSMTree.get`: the memtable first (a tombstone hit answers absent), the
segments newest to oldest otherwise. -/
def getOp (s : LSMState) (k : String) : Option String :=
  match searchNode k s.memRoot with
  | some v => if v = TOMBSTONE then none else some v
  | none => getSegs k s.segments.reverse

/-- `LSMTree.fuzzy_get` (`lsmtree.py` lines 259–292): one fuzzy scan over
the memtable items followed by the segments newest to oldest. -/
def fuzzyGet (s : LSMState) (skey : String) (maxd : Nat) :
    List (String × String) :=
  fuzzyGo skey maxd (itemsNode s.memRoot ++ s.segments.reverse.flatten) []

theorem flushOp_wal (s : LSMState) : (flushOp s).wal = s.wal := by
  unfold flushOp
  split <;> rfl

theorem putOp_wal (th : Nat) (s : LSMState) (k v : String) :
    (putOp th s k v).wal = s.wal ++ [(k, v)] := by
  unfold putOp
  split
  · rw [flushOp_wal]
  · rfl

theorem compactOp_frame (s : LSMState) :
    (compactOp s).wal = s.wal ∧ (compactOp s).memRoot = s.memRoot := by
  unfold compactOp
  split <;> exact ⟨rfl, rfl⟩

theorem compactOp_segments (s : LSMState) :
    (compactOp s).segments.length ≤ 1 ∨
      (compactOp s).segments = s.segments := by
  unfold compactOp
  split
  · exact Or.inr rfl
  · exact Or.inl (by simp)

theorem applyOp_wal (th : Nat) (s : LSMState) (op : LSMOp) :
    (applyOp th s op).wal = s.wal ++ walOf [op] := by
  cases op with
  | put k v => exact putOp_wal th s k v
  | del k => exact putOp_wal th s k TOMBSTONE
  | flush => rw [applyOp, flushOp_wal, walOf, walOf]; simp
  | compact => rw [applyOp, (compactOp_frame s).1, walOf, walOf]; simp

theorem walOf_cons (op : LSMOp) (ops : List LSMOp) :
    walOf (op :: ops) = walOf [op] ++ walOf ops := by
  cases op <;> simp [walOf]

theorem runOps_wal (th : Nat) :
    ∀ (ops : List LSMOp) (s : LSMState),
      (runOps th s ops).wal = s.wal ++ walOf ops := by
  intro ops
  induction ops with
  | nil => intro s; simp [runOps, walOf]
  | cons op rest ih =>
    intro s
    show (runOps th (applyOp th s op) rest).wal = _
    rw [ih, applyOp_wal, List.append_assoc, ← walOf_cons]

/-- The standing invariant of the engine: the memtable is the replay of the
whole retained WAL. It holds at initialization and is preserved by every
operation — in particular by a flush, because the WAL file is opened in
mode `'a+'` and never truncated, so the replacement `BTree` recovers every
record ever logged. -/
def lsmInv (s : LSMState) : Prop := s.memRoot = replay 5 s.wal

theorem lsmInv_init : lsmInv lsmInit := rfl

theorem flushOp_inv (s : LSMState) (h : lsmInv s) : lsmInv (flushOp s) := by
  unfold lsmInv at h ⊢
  unfold flushOp
  split
  · exact h
  · rfl

theorem putOp_inv (th : Nat) (s : LSMState) (k v : String) (h : lsmInv s) :
    lsmInv (putOp th s k v) := by
  have hbase : lsmInv
      { s with wal := s.wal ++ [(k, v)], memRoot := insertTree 5 s.memRoot k v } := by
    show insertTree 5 s.memRoot k v = replay 5 (s.wal ++ [(k, v)])
    rw [h, replay_append s.wal (k, v)]
  unfold putOp
  split
  · exact flushOp_inv _ hbase
  · exact hbase

theorem applyOp_inv (th : Nat) (s : LSMState) (op : LSMOp) (h : lsmInv s) :
    lsmInv (applyOp th s op) := by
  cases op with
  | put k v => exact putOp_inv th s k v h
  | del k => exact putOp_inv th s k TOMBSTONE h
  | flush => exact flushOp_inv s h
  | compact =>
    show lsmInv (compactOp s)
    unfold lsmInv
    rw [(compactOp_frame s).1, (compactOp_frame s).2]
    exact h

theorem runOps_inv (th : Nat) :
    ∀ (ops : List LSMOp) (s : LSMState), lsmInv s → lsmInv (runOps th s ops) := by
  intro ops
  induction ops with
  | nil => intro s h; exact h
  | cons op rest ih =>
    intro s h
    exact ih (applyOp th s op) (applyOp_inv th s op h)

/-- Under the invariant, a read of any ever-written key is answered by the
memtable with the last value logged for it. -/
theorem getOp_lww (s : LSMState) (hinv : lsmInv s) (k v : String)
    (hl : lww k s.wal = some v) :
    getOp s k = if v = TOMBSTONE then none else some v := by
  unfold getOp
  unfold lsmInv at hinv
  rw [hinv, replay_search (by norm_num) k s.wal, hl]

theorem walOf_append : ∀ A B : List LSMOp, walOf (A ++ B) = walOf A ++ walOf B := by
  intro A
  induction A with
  | nil => intro B; simp [walOf]
  | cons op rest ih =>
    intro B
    rw [List.cons_append, walOf_cons, walOf_cons op rest, ih, List.append_assoc]

theorem walOf_eq_nil (ops : List LSMOp)
    (h : ∀ op ∈ ops, op = LSMOp.flush ∨ op = LSMOp.compact) :
    walOf ops = [] := by
  induction ops with
  | nil => rfl
  | cons op rest ih =>
    rcases h op (List.mem_cons_self op rest) with rfl | rfl
    · exact ih (fun op hop => h op (List.mem_cons_of_mem _ hop))
    · exact ih (fun op hop => h op (List.mem_cons_of_mem _ hop))

theorem lww_skip (k : String) :
    ∀ (ops : List (String × String)) (acc : Option String),
      k ∉ ops.map Prod.fst →
      ops.foldl (fun acc p => if p.1 = k then some p.2 else acc) acc = acc := by
  intro ops
  induction ops with
  | nil => intro acc _; rfl
  | cons p rest ih =>
    intro acc hk
    simp only [List.map_cons, List.mem_cons] at hk
    rw [List.foldl_cons, if_neg (fun hc => hk (Or.inl hc.symm))]
    exact ih acc (fun hc => hk (Or.inr hc))

/-- With pairwise-distinct keys, last-write-wins is just lookup. -/
theorem lww_nodup (k v : String) :
    ∀ ps : List (String × String), (ps.map Prod.fst).Nodup →
      (k, v) ∈ ps → lww k ps = some v := by
  intro ps
  induction ps with
  | nil => intro _ hm; exact absurd hm (List.not_mem_nil _)
  | cons p rest ih =>
    intro hnd hm
    simp only [List.map_cons, List.nodup_cons] at hnd
    rcases List.mem_cons.mp hm with rfl | hm'
    · show rest.foldl _ (if k = k then some v else none) = some v
      rw [if_pos rfl]
      exact lww_skip k rest _ hnd.1
    · have hne : p.1 ≠ k := by
        intro hc
        exact hnd.1 (hc ▸ List.mem_map.mpr ⟨(k, v), hm', rfl⟩)
      show rest.foldl _ (if p.1 = k then some p.2 else none) = some v
      rw [if_neg hne]
      exact ih hnd.2 hm'

theorem walOf_puts (ps : List (String × String)) :
    walOf (ps.map (fun p => LSMOp.put p.1 p.2)) = ps := by
  induction ps with
  | nil => rfl
  | cons p rest ih => simp [walOf, ih]

theorem compactOp_le_one (s : LSMState) :
    (compactOp s).segments.length ≤ 1 := by
  unfold compactOp
  split
  · rename_i h
    omega
  · simp

/-! ## The claims -/

/-- C1: Delete shadowing. For every key `k` and value `v`, after `put(k, v)`
followed by `delete(k)` — with any number of memtable flushes and
compactions interleaved before, between, or after (and an arbitrary prior
history `A`) — `get(k)` returns absent. -/
theorem C1_delete_shadowing (th : Nat) (A B C : List LSMOp) (k v : String)
    (hB : ∀ op ∈ B, op = LSMOp.flush ∨ op = LSMOp.compact)
    (hC : ∀ op ∈ C, op = LSMOp.flush ∨ op = LSMOp.compact) :
    getOp (runOps th lsmInit
      (A ++ LSMOp.put k v :: (B ++ LSMOp.del k :: C))) k = none := by
  have hinv : lsmInv (runOps th lsmInit
      (A ++ LSMOp.put k v :: (B ++ LSMOp.del k :: C))) :=
    runOps_inv th _ lsmInit lsmInv_init
  have hwal : (runOps th lsmInit
      (A ++ LSMOp.put k v :: (B ++ LSMOp.del k :: C))).wal =
      walOf A ++ [(k, v), (k, TOMBSTONE)] := by
    rw [runOps_wal]
    simp only [walOf_append, walOf]
    rw [walOf_eq_nil B hB, walOf_eq_nil C hC]
    simp [lsmInit]
  have hlww : lww k (runOps th lsmInit
      (A ++ LSMOp.put k v :: (B ++ LSMOp.del k :: C))).wal =
      some TOMBSTONE := by
    rw [hwal, lww_append]
    simp
  rw [getOp_lww _ hinv k TOMBSTONE hlww, if_pos rfl]

theorem C1_delete_shadowing_witness :
    (∀ op ∈ [LSMOp.flush], op = LSMOp.flush ∨ op = LSMOp.compact) ∧
    (∀ op ∈ [LSMOp.compact], op = LSMOp.flush ∨ op = LSMOp.compact) ∧
    getOp (runOps 1 lsmInit
      ([] ++ LSMOp.put "a" "b" ::
        ([LSMOp.flush] ++ LSMOp.del "a" :: [LSMOp.compact]))) "a" = none := by
  refine ⟨?_, ?_, ?_⟩
  · intro op hop
    rw [List.mem_singleton] at hop
    exact Or.inl hop
  · intro op hop
    rw [List.mem_singleton] at hop
    exact Or.inr hop
  · exact C1_delete_shadowing 1 [] [LSMOp.flush] [LSMOp.compact] "a" "b"
      (fun op hop => Or.inl (List.mem_singleton.mp hop))
      (fun op hop => Or.inr (List.mem_singleton.mp hop))

/-- C2 (amended): `_flush_memtable` does not discard the WAL — the log file
is opened with mode `'a+'` and never truncated — so the replacement memtable
built against the same WAL path is the replay of the entire retained log,
not an empty table (an empty memtable is not flushed at all). -/
theorem C2_flush_keeps_wal (s : LSMState) :
    (flushOp s).wal = s.wal ∧
    (flushOp s).memRoot =
      (if itemsNode s.memRoot = [] then s.memRoot else replay 5 s.wal) := by
  unfold flushOp
  split
  · exact ⟨rfl, rfl⟩
  · exact ⟨rfl, rfl⟩

/-- C2 counterexample to the original claim: with threshold 1, one `put`
triggers a flush of the non-empty memtable (a segment appears), yet the
replacement memtable still holds the record — the WAL was kept and replayed,
not discarded and recreated. -/
theorem C2_flush_counterexample :
    (runOps 1 lsmInit [LSMOp.put "k" "v"]).segments ≠ [] ∧
    (runOps 1 lsmInit [LSMOp.put "k" "v"]).wal = [("k", "v")] ∧
    itemsNode (runOps 1 lsmInit [LSMOp.put "k" "v"]).memRoot =
      [("k", "v")] := by
  have hitems : itemsNode (insertTree 5 emptyRoot "k" "v") = [("k", "v")] := by
    rw [(insertTree_correct (by norm_num) emptyRoot (emptyRoot_wf 5)).2,
      searchNode_emptyRoot, itemsNode_emptyRoot]
    rfl
  have hrun : runOps 1 lsmInit [LSMOp.put "k" "v"] =
      putOp 1 lsmInit "k" "v" := rfl
  have hput : putOp 1 lsmInit "k" "v" =
      flushOp
        { lsmInit with
          wal := [("k", "v")],
          memRoot := insertTree 5 emptyRoot "k" "v" } := by
    unfold putOp
    rw [if_pos]
    · rfl
    · show 1 ≤ (itemsNode (insertTree 5 lsmInit.memRoot "k" "v")).length
      rw [show lsmInit.memRoot = emptyRoot from rfl, hitems]
      norm_num
  have hflush : flushOp
      { lsmInit with
        wal := [("k", "v")],
        memRoot := insertTree 5 emptyRoot "k" "v" } =
      { lsmInit with
        wal := [("k", "v")],
        segments := [[("k", "v")]],
        segmentCounter := 1,
        memRoot := replay 5 [("k", "v")] } := by
    unfold flushOp
    rw [if_neg]
    · rw [show itemsNode (insertTree 5 emptyRoot "k" "v") = [("k", "v")]
        from hitems]
      rfl
    · show ¬ itemsNode (insertTree 5 emptyRoot "k" "v") = []
      rw [hitems]
      simp
  rw [hrun, hput, hflush]
  refine ⟨by simp, rfl, ?_⟩
  show itemsNode (replay 5 [("k", "v")]) = [("k", "v")]
  have : replay 5 [("k", "v")] = insertTree 5 emptyRoot "k" "v" := rfl
  rw [this, hitems]

/-- C3: Compaction convergence. After a final `compact()`, the engine holds
at most one segment, and any ever-written key reads back as its latest
logged value — absent when that value is the tombstone (the encoding of
delete). -/
theorem C3_compaction_convergence (th : Nat) (ops : List LSMOp)
    (k v : String) (hlast : lww k (walOf ops) = some v) :
    (runOps th lsmInit (ops ++ [LSMOp.compact])).segments.length ≤ 1 ∧
    getOp (runOps th lsmInit (ops ++ [LSMOp.compact])) k =
      (if v = TOMBSTONE then none else some v) := by
  constructor
  · have hsplit : runOps th lsmInit (ops ++ [LSMOp.compact]) =
        compactOp (runOps th lsmInit ops) := by
      unfold runOps
      rw [List.foldl_append]
      rfl
    rw [hsplit]
    exact compactOp_le_one _
  · have hinv : lsmInv (runOps th lsmInit (ops ++ [LSMOp.compact])) :=
      runOps_inv th _ lsmInit lsmInv_init
    have hlww : lww k (runOps th lsmInit (ops ++ [LSMOp.compact])).wal =
        some v := by
      rw [runOps_wal, walOf_append]
      show lww k ([] ++ (walOf ops ++ walOf [LSMOp.compact])) = some v
      rw [show walOf [LSMOp.compact] = [] from rfl]
      simpa using hlast
    exact getOp_lww _ hinv k v hlww

theorem C3_compaction_convergence_witness :
    lww "a" (walOf [LSMOp.put "a" "b"]) = some "b" ∧
    ((runOps 10 lsmInit ([LSMOp.put "a" "b"] ++ [LSMOp.compact])).segments.length ≤ 1 ∧
      getOp (runOps 10 lsmInit ([LSMOp.put "a" "b"] ++ [LSMOp.compact])) "a" =
        (if "b" = TOMBSTONE then none else some "b")) :=
  ⟨by decide, C3_compaction_convergence 10 [LSMOp.put "a" "b"] "a" "b" (by decide)⟩

/-- C4: Round-trip. Any sequence of `put`s with pairwise-distinct keys (the
tombstone sentinel is reserved and not a value, spec §2) reads back every
pair, whatever the flush threshold. -/
theorem C4_round_trip (th : Nat) (ps : List (String × String))
    (hnd : (ps.map Prod.fst).Nodup) (k v : String) (hm : (k, v) ∈ ps)
    (hv : v ≠ TOMBSTONE) :
    getOp (runOps th lsmInit (ps.map (fun p => LSMOp.put p.1 p.2))) k =
      some v := by
  have hinv : lsmInv (runOps th lsmInit (ps.map (fun p => LSMOp.put p.1 p.2))) :=
    runOps_inv th _ lsmInit lsmInv_init
  have hlww : lww k (runOps th lsmInit
      (ps.map (fun p => LSMOp.put p.1 p.2))).wal = some v := by
    rw [runOps_wal, walOf_puts]
    show lww k ([] ++ ps) = some v
    rw [List.nil_append]
    exact lww_nodup k v ps hnd hm
  rw [getOp_lww _ hinv k v hlww, if_neg hv]

theorem C4_round_trip_witness :
    ([("a", "x"), ("b", "y")].map Prod.fst).Nodup ∧
    ("b", "y") ∈ [("a", "x"), ("b", "y")] ∧
    "y" ≠ TOMBSTONE ∧
    getOp (runOps 1 lsmInit
      ([("a", "x"), ("b", "y")].map (fun p => LSMOp.put p.1 p.2))) "b" =
      some "y" :=
  ⟨by decide, by decide, by decide,
    C4_round_trip 1 [("a", "x"), ("b", "y")] (by decide) "b" "y"
      (by decide) (by decide)⟩

/-- C10 (implicit): with fewer than two segments, `compact()` returns before
doing anything: the whole engine state — segment list, segment counter,
memtable and WAL — is unchanged. -/
theorem C10_compaction_guard (s : LSMState) (h : s.segments.length < 2) :
    compactOp s = s := by
  unfold compactOp
  rw [if_pos h]

theorem C10_compaction_guard_witness :
    (LSMState.mk [] emptyRoot [[("a", "b")]] 3).segments.length < 2 ∧
    compactOp (LSMState.mk [] emptyRoot [[("a", "b")]] 3) =
      LSMState.mk [] emptyRoot [[("a", "b")]] 3 :=
  ⟨by decide, C10_compaction_guard _ (by decide)⟩

/-- C5: Sparse-index correctness. The index built by
`SSTable.write_from_memtable` over `n` records has exactly `⌈n / 10⌉`
entries, and seeking to any indexed byte offset and reading one line yields
the line of a record whose key is the indexed key. -/
theorem C5_sparse_index (M : List (String × String)) :
    (buildIndex M 0 0).length = (M.length + 9) / 10 ∧
    ∀ p ∈ buildIndex M 0 0, ∃ v, (p.1, v) ∈ M ∧
      readLineAt (sstFile M) p.2 = jsonRecordLine p.1 v := by
  constructor
  · rw [buildIndex_length]
    omega
  · intro p hp
    have hp' : p ∈ buildIndex M (([] : List Char).length) 0 := hp
    obtain ⟨v, hv, hread⟩ := buildIndex_reads M 0 [] p hp'
    exact ⟨v, hv, by simpa using hread⟩

theorem C5_sparse_index_witness :
    ("a", 0) ∈ buildIndex [("a", "b")] 0 0 ∧
    ∃ v, (("a", 0).1, v) ∈ [("a", "b")] ∧
      readLineAt (sstFile [("a", "b")]) ("a", 0).2 =
        jsonRecordLine ("a", 0).1 v :=
  ⟨by decide, (C5_sparse_index [("a", "b")]).2 ("a", 0) (by decide)⟩

/-- C6: WAL recovery. Run any sequence of logging inserts from a fresh
B-Tree; reopening a B-Tree on the resulting WAL path replays the log in
order with the non-logging insert, after which `search` returns the last
inserted value of every written key — no insert re-issued. -/
theorem C6_wal_recovery (t : Nat) (ht : 2 ≤ t) (ops : List (String × String))
    (k v : String) (hlast : lww k ops = some v) :
    btreeSearch
      (btreeOpen t (btreeRun (btreeOpen t []) ops).walContents) k = some v := by
  rw [btreeRun_wal]
  show searchNode k (replay t (([] : List (String × String)) ++ ops)) = some v
  rw [List.nil_append, replay_search ht, hlast]

theorem C6_wal_recovery_witness :
    2 ≤ 2 ∧
    lww "key1" [("key1", "value1"), ("key2", "value2")] = some "value1" ∧
    btreeSearch
      (btreeOpen 2 (btreeRun (btreeOpen 2 [])
        [("key1", "value1"), ("key2", "value2")]).walContents) "key1" =
      some "value1" :=
  ⟨by decide, by decide,
    C6_wal_recovery 2 (by decide) [("key1", "value1"), ("key2", "value2")]
      "key1" "value1" (by decide)⟩

/-- C7: Bloom soundness. For any digest function, any positive size and any
hash count, every item added by a sequence of `add` calls tests positive
afterwards — no false negatives, however many further adds follow. -/
theorem C7_bloom_soundness (digest : String → Nat) (size hash_count : Nat)
    (hsize : 1 ≤ size) (items : List String) (x : String) (hx : x ∈ items) :
    bloomContains digest
      (bloomRun digest (bloomInit size hash_count) items) x = true :=
  bloomRun_contains digest x items (bloomInit size hash_count)
    (by simp [bloomInit]) hsize (Or.inl hx)

theorem C7_bloom_soundness_witness :
    1 ≤ 3 ∧ "a" ∈ ["a", "b"] ∧
    bloomContains (fun s => s.length)
      (bloomRun (fun s => s.length) (bloomInit 3 2) ["a", "b"]) "a" = true :=
  ⟨by decide, by decide,
    C7_bloom_soundness (fun s => s.length) 3 2 (by decide) ["a", "b"] "a"
      (by decide)⟩

/-- C8: B-Tree structural invariant. From the empty tree, any sequence of
inserts with minimum degree `t ≥ 2` keeps every node structurally sound:
non-root nodes hold between `t-1` and `2t-1` keys, keys are strictly
ascending with parallel values, and leaves are childless. -/
theorem C8_btree_invariant (t : Nat) (ht : 2 ≤ t)
    (ops : List (String × String)) :
    structOK t true (replay t ops) = true :=
  structOK_of_wf (replay t ops) none none true (replay_wf ht ops)

theorem C8_btree_invariant_witness :
    2 ≤ 2 ∧ structOK 2 true (replay 2 [("a", "b"), ("c", "d")]) = true :=
  ⟨by decide, C8_btree_invariant 2 (by decide) [("a", "b"), ("c", "d")]⟩

/-- C9: Fuzzy-get visibility. The scan returns exactly the first (newest:
memtable first, then segments newest-to-oldest) occurrence of each key
within Levenshtein range whose value there is not the tombstone — and hence
each key at most once. -/
theorem C9_fuzzy_get (s : LSMState) (skey : String) (maxd : Nat) :
    fuzzyGet s skey maxd =
      (dedupKeys (itemsNode s.memRoot ++ s.segments.reverse.flatten)
        []).filter
        (fun p => decide (levDistance skey p.1 ≤ maxd) &&
          decide (p.2 ≠ TOMBSTONE)) ∧
    ((fuzzyGet s skey maxd).map Prod.fst).Nodup := by
  have heq := fuzzyGo_eq_filter_dedup skey maxd
    (itemsNode s.memRoot ++ s.segments.reverse.flatten) [] []
    (fun k => by simp)
  refine ⟨heq, ?_⟩
  unfold fuzzyGet
  rw [heq]
  exact List.Nodup.sublist
    ((List.filter_sublist _).map Prod.fst)
    (dedupKeys_nodup (itemsNode s.memRoot ++ s.segments.reverse.flatten) []).1
